import Mathlib

/-!
Verification of the dominance / dominance-frontier computation of
`include/crab/analysis/graphs/dominance.hpp`.

The graph is modelled as a finite directed graph over `Nat` node identifiers
with a designated entry node and an optional exit node, mirroring the graph
view the C++ code consumes (`vertices`, `in_edges`, `entry()`, `has_exit()`,
`exit()`, `null_vertex`).  The C++ null vertex is modelled by `Option.none`.

The frontier computation (`graph_algo_impl::dominance`) is translated
directly from the source: for every node `n` and every in-edge `p → n` a
`runner` walks up the immediate-dominator chain starting at `p`, adding `n`
to `DF[runner]` (with a linear-search duplicate check, as in the C++), until
the runner becomes the null vertex, `idom[n]`, or `n` itself.  The C++
`while` loop is rendered with explicit fuel; fuel sufficiency is proved
separately.

The dominator-tree builder itself is `boost::lengauer_tarjan_dominator_tree`,
an external library the repository only wraps; it is modelled from the spec
(see `idomFn`).
-/

/-- A directed graph over `Nat` node identifiers: vertex list, edge list,
designated entry node and optional exit node. -/
structure Graph where
  nodes : List Nat
  edges : List (Nat × Nat)
  entry : Nat
  exitNode : Option Nat
deriving DecidableEq

/-- Sources of the in-edges of `n` (the C++ `source(e, g)` for
`e ∈ in_edges(n, g)`). -/
def preds (g : Graph) (n : Nat) : List Nat :=
  (g.edges.filter (fun e => e.2 == n)).map Prod.fst

/-- Targets of the out-edges of `n`. -/
def succs (g : Graph) (n : Nat) : List Nat :=
  (g.edges.filter (fun e => e.1 == n)).map Prod.snd

/-- Every edge endpoint is a vertex of the graph. -/
def edgesClosed (g : Graph) : Prop :=
  ∀ e ∈ g.edges, e.1 ∈ g.nodes ∧ e.2 ∈ g.nodes

/-- A well-formed graph view: edge endpoints are vertices and the vertex
enumeration has no duplicates. -/
def wellformed (g : Graph) : Prop :=
  edgesClosed g ∧ g.nodes.Nodup

instance (g : Graph) : Decidable (edgesClosed g) := by
  unfold edgesClosed; infer_instance

instance (g : Graph) : Decidable (wellformed g) := by
  unfold wellformed; infer_instance

/-- `GPath g a b p` : `p` is the list of nodes of a directed walk from `a`
to `b` following edges of `g`. -/
inductive GPath (g : Graph) : Nat → Nat → List Nat → Prop
  | single (a : Nat) : GPath g a a [a]
  | cons {a b c : Nat} {p : List Nat} :
      (a, b) ∈ g.edges → GPath g b c p → GPath g a c (a :: p)

/-- `v` is reachable from `a` in `g`. -/
def Reach (g : Graph) (a v : Nat) : Prop := ∃ p, GPath g a v p

/-- `u` dominates `v` (with respect to entry `e`): every path from `e` to
`v` passes through `u`. -/
def Dom (g : Graph) (e u v : Nat) : Prop := ∀ p, GPath g e v p → u ∈ p

/-- `u` strictly dominates `v`: `u` dominates `v` and `u ≠ v`. -/
def SDom (g : Graph) (e u v : Nat) : Prop := u ≠ v ∧ Dom g e u v

/-- Nodes reachable from `a` by a walk of at most `fuel` edges. -/
def reachUpTo (g : Graph) (a : Nat) : Nat → List Nat
  | 0 => [a]
  | n + 1 =>
      let prev := reachUpTo g a n
      (prev ++ prev.flatMap (fun x => succs g x)).dedup

/-- Executable reachability test. -/
def reachComp (g : Graph) (a b : Nat) : Bool :=
  b ∈ reachUpTo g a (g.nodes.length + 1)

/-- The graph with node `u` (and all incident edges) removed. -/
def delNode (g : Graph) (u : Nat) : Graph :=
  { g with nodes := g.nodes.filter (fun x => !(x == u)),
           edges := g.edges.filter (fun e => !(e.1 == u) && !(e.2 == u)) }

/-- Executable dominance test: `u` dominates `v` iff `u = v` or `v` is not
reachable from the entry once `u` is removed from the graph. -/
def DomDec (g : Graph) (e u v : Nat) : Bool :=
  u == v || !(reachComp (delNode g u) e v)

/-- The strict dominators of `v` among the vertices of `g`. -/
def sdomsList (g : Graph) (e v : Nat) : List Nat :=
  g.nodes.filter (fun u => !(u == v) && DomDec g e u v)

/-- Modelled from the spec: the result of the dominator-tree builder for a
single node.  The source delegates the computation of immediate dominators
to `boost::lengauer_tarjan_dominator_tree`, an external library that is not
part of this repository; per spec section 4.2 its result is: for every node
reachable from the entry other than the entry itself, the unique immediate
dominator; the null vertex (`none`) for the entry and for unreachable
nodes.  The immediate dominator is computed here as the strict dominator
that is dominated by every other strict dominator. -/
def idomFn (g : Graph) (e v : Nat) : Option Nat :=
  if v = e then none
  else if reachComp g e v then
    (sdomsList g e v).find? (fun u => (sdomsList g e v).all (fun w => DomDec g e w u))
  else none

/-- The `dominator_tree` output map: one `(v, idom v)` pair per vertex,
`none` standing for the C++ `null_vertex` sentinel. -/
def dominator_tree (g : Graph) (e : Nat) : List (Nat × Option Nat) :=
  g.nodes.map (fun v => (v, idomFn g e v))

/-- Lookup in the frontier map; a missing key reads as the empty frontier
(the C++ `VectorMap` access semantics). -/
def dfLookup (df : List (Nat × List Nat)) (k : Nat) : List Nat :=
  match df.find? (fun kv => kv.1 == k) with
  | some kv => kv.2
  | none => []

/-- One frontier insertion: access `df[r]` (creating the entry when absent,
as the C++ `operator[]` does) and append `n` unless already present (the
`std::find` guard before `push_back`). -/
def dfAdd (df : List (Nat × List Nat)) (r n : Nat) : List (Nat × List Nat) :=
  match df.find? (fun kv => kv.1 == r) with
  | some _ =>
      df.map (fun kv =>
        if kv.1 == r then (kv.1, if n ∈ kv.2 then kv.2 else kv.2 ++ [n]) else kv)
  | none => df ++ [(r, [n])]

/-- The runner walk of the frontier loop, translated from the source: while
the runner is not the null vertex, not `idom[n]` and not `n`, add `n` to
`DF[runner]` and advance the runner to `idom[runner]`.  The C++ `while`
is rendered with explicit fuel. -/
def runnerLoopF (g : Graph) (e n : Nat) :
    Option Nat → Nat → List (Nat × List Nat) → List (Nat × List Nat)
  | _, 0, df => df
  | none, _ + 1, df => df
  | some r, f + 1, df =>
      if some r = idomFn g e n ∨ r = n then df
      else runnerLoopF g e n (idomFn g e r) f (dfAdd df r n)

/-- The list of runners that receive `n` during one runner walk (same
recursion as `runnerLoopF`). -/
def walkAdds (g : Graph) (e n : Nat) : Option Nat → Nat → List Nat
  | _, 0 => []
  | none, _ + 1 => []
  | some r, f + 1 =>
      if some r = idomFn g e n ∨ r = n then []
      else r :: walkAdds g e n (idomFn g e r) f

/-- The immediate-dominator chain starting at a runner value. -/
def chainList (g : Graph) (e : Nat) : Option Nat → Nat → List Nat
  | _, 0 => []
  | none, _ + 1 => []
  | some r, f + 1 => r :: chainList g e (idomFn g e r) f

/-- The fuel every runner walk of `g` is given. -/
def walkFuel (g : Graph) : Nat := g.nodes.length + 1

/-- `graph_algo_impl::dominance` with explicit fuel for the runner loops:
for every node `n` of the graph and every in-edge `p → n`, run the runner
walk from `p`. -/
def dominance_implF (g : Graph) (e fuel : Nat) (df0 : List (Nat × List Nat)) :
    List (Nat × List Nat) :=
  g.nodes.foldl
    (fun df n => (preds g n).foldl (fun df2 p => runnerLoopF g e n (some p) fuel df2) df)
    df0

/-- `graph_algo_impl::dominance`: compute the dominator tree, then derive
the dominance frontier map with the Cooper/Torczon iteration. -/
def dominance_impl (g : Graph) (e : Nat) (df0 : List (Nat × List Nat)) :
    List (Nat × List Nat) :=
  dominance_implF g e (walkFuel g) df0

/-- Top-level `dominance`: run the pipeline from the graph's entry node. -/
def dominance (g : Graph) (df0 : List (Nat × List Nat)) : List (Nat × List Nat) :=
  dominance_impl g g.entry df0

/-- Modelled from the spec: `cfg::cfg_rev<G>` (defined elsewhere in the
repository, outside the analysed sources) is the reversed view of `g`:
same node identities, every edge flipped, entry replaced by the original
exit node. -/
def cfg_rev (g : Graph) : Graph :=
  { nodes := g.nodes,
    edges := g.edges.map (fun pr => (pr.2, pr.1)),
    entry := g.exitNode.getD g.entry,
    exitNode := some g.entry }

/-- `post_dominance`: if the graph has no designated exit node, return the
map unchanged; otherwise run the dominance pipeline on the reversed view
rooted at the exit. -/
def post_dominance (g : Graph) (rdf : List (Nat × List Nat)) :
    List (Nat × List Nat) :=
  match g.exitNode with
  | none => rdf
  | some _ => dominance_impl (cfg_rev g) (cfg_rev g).entry rdf

/-- The reversed view described by the spec's own words (section 4.4):
edges reversed, node identities preserved, entry set to the exit node `x`.
Used to state the refinement claim about `post_dominance`. -/
def revViewSpec (g : Graph) (x : Nat) : Graph :=
  { nodes := g.nodes,
    edges := g.edges.map (fun pr => (pr.2, pr.1)),
    entry := x,
    exitNode := none }

/-- Diagnostic lines emitted by `dominator_tree` (the `CRAB_LOG
"dominator"` sink): one line per vertex. -/
def dominator_tree_events (g : Graph) (e : Nat) : List String :=
  g.nodes.map (fun v =>
    match idomFn g e v with
    | some d => toString d ++ " is the immediate dominator of " ++ toString v
    | none => toString v ++ " is not dominated by anyone!")

/-- Diagnostic lines emitted by one run of `graph_algo_impl::dominance`:
the dominator lines followed by the frontier dump. -/
def dominance_impl_events (g : Graph) (e : Nat) (df0 : List (Nat × List Nat)) :
    List String :=
  dominator_tree_events g e ++
    (dominance_impl g e df0).map (fun kv => toString kv.1 ++ "=" ++ toString kv.2)

/-- Diagnostic lines emitted by `post_dominance`: nothing when the graph
has no exit (the function returns before any logging). -/
def post_dominance_events (g : Graph) (rdf : List (Nat × List Nat)) :
    List String :=
  match g.exitNode with
  | none => []
  | some _ =>
      "Post-Dominance Frontiers" :: dominance_impl_events (cfg_rev g) (cfg_rev g).entry rdf

/-- The diamond control-flow graph `A→B, A→C, B→D, C→D` with entry `A = 0`
and exit `D = 3`. -/
def diamond : Graph :=
  { nodes := [0, 1, 2, 3],
    edges := [(0, 1), (0, 2), (1, 3), (2, 3)],
    entry := 0,
    exitNode := some 3 }

/-- A single node with a self-loop and no exit. -/
def gSelfLoop : Graph :=
  { nodes := [0], edges := [(0, 0)], entry := 0, exitNode := none }

/-- A single isolated node. -/
def gSingle : Graph :=
  { nodes := [0], edges := [], entry := 0, exitNode := none }

/-- The graph `g` with an additional self-loop edge `n → n` appended. -/
def addLoop (g : Graph) (n : Nat) : Graph :=
  { g with edges := g.edges ++ [(n, n)] }

/-- The stop condition of the runner loop, as a Bool predicate. -/
def keepGoing (g : Graph) (e n : Nat) (x : Nat) : Bool :=
  !(decide (some x = idomFn g e n) || decide (x = n))

/-! ### Basic path lemmas -/

theorem gpath_head {g : Graph} {a b : Nat} {p : List Nat} (h : GPath g a b p) :
    ∃ t, p = a :: t := by
  cases h with
  | single => exact ⟨[], rfl⟩
  | cons hE hp => exact ⟨_, rfl⟩

theorem gpath_mem_head {g : Graph} {a b : Nat} {p : List Nat} (h : GPath g a b p) :
    a ∈ p := by
  obtain ⟨t, rfl⟩ := gpath_head h
  exact List.mem_cons_self a t

theorem gpath_mem_last {g : Graph} {a b : Nat} {p : List Nat} (h : GPath g a b p) :
    b ∈ p := by
  induction h with
  | single a => exact List.mem_cons_self a []
  | cons hE hp ih => exact List.mem_cons_of_mem _ ih

theorem gpath_nil {g : Graph} {a b : Nat} (h : GPath g a b []) : False := by
  cases h

theorem gpath_singleton {g : Graph} {a b x : Nat} (h : GPath g a b [x]) :
    a = x ∧ b = x := by
  cases h with
  | single => exact ⟨rfl, rfl⟩
  | cons hE hp => exact absurd hp (by intro hp; exact gpath_nil hp)

theorem gpath_append {g : Graph} {a b c : Nat} {p q : List Nat}
    (h1 : GPath g a b p) (h2 : GPath g b c q) : GPath g a c (p ++ q.tail) := by
  induction h1 with
  | single a =>
      obtain ⟨t, rfl⟩ := gpath_head h2
      simpa using h2
  | cons hE hp ih => exact GPath.cons hE (ih h2)

theorem gpath_split {g : Graph} {a c : Nat} {p : List Nat} (h : GPath g a c p) :
    ∀ p₁ x p₂, p = p₁ ++ x :: p₂ →
      GPath g a x (p₁ ++ [x]) ∧ GPath g x c (x :: p₂) := by
  induction h with
  | single a =>
      intro p₁ x p₂ hp
      rcases p₁ with _ | ⟨y, ys⟩
      · simp only [List.nil_append, List.cons.injEq] at hp
        obtain ⟨rfl, hp2⟩ := hp
        have : p₂ = [] := by simpa using hp2.symm
        subst this
        exact ⟨GPath.single a, GPath.single a⟩
      · simp only [List.cons_append, List.cons.injEq] at hp
        exact absurd hp.2 (by simp)
  | @cons a b c p hE hp ih =>
      intro p₁ x p₂ hp'
      rcases p₁ with _ | ⟨y, ys⟩
      · simp only [List.nil_append, List.cons.injEq] at hp'
        obtain ⟨rfl, rfl⟩ := hp'
        exact ⟨GPath.single a, GPath.cons hE hp⟩
      · simp only [List.cons_append, List.cons.injEq] at hp'
        obtain ⟨rfl, hp2⟩ := hp'
        obtain ⟨h1, h2⟩ := ih ys x p₂ hp2
        exact ⟨GPath.cons hE h1, h2⟩

theorem gpath_to_nodup {g : Graph} {a b : Nat} {p : List Nat} (h : GPath g a b p) :
    ∃ q, GPath g a b q ∧ q.Nodup ∧ ∀ x ∈ q, x ∈ p := by
  induction h with
  | single a => exact ⟨[a], GPath.single a, List.nodup_singleton a, by simp⟩
  | @cons a b c p hE hp ih =>
      obtain ⟨q, hq, hnd, hsub⟩ := ih
      by_cases ha : a ∈ q
      · obtain ⟨s, t, rfl⟩ := List.append_of_mem ha
        refine ⟨a :: t, (gpath_split hq s a t rfl).2, ?_, ?_⟩
        · exact hnd.sublist (List.sublist_append_right s (a :: t))
        · intro x hx
          refine List.mem_cons_of_mem _ (hsub x ?_)
          rcases List.mem_cons.1 hx with rfl | hx
          · exact ha
          · exact List.mem_append_right s (List.mem_cons_of_mem _ hx)
      · refine ⟨a :: q, GPath.cons hE hq, List.nodup_cons.2 ⟨ha, hnd⟩, ?_⟩
        intro x hx
        rcases List.mem_cons.1 hx with rfl | hx
        · exact List.mem_cons_self x p
        · exact List.mem_cons_of_mem _ (hsub x hx)

theorem gpath_tail_nodes {g : Graph} (hc : edgesClosed g) {a b : Nat}
    {p : List Nat} (h : GPath g a b p) : ∀ x ∈ p, x = a ∨ x ∈ g.nodes := by
  induction h with
  | single a => intro x hx; left; simpa using hx
  | @cons a b c p hE hp ih =>
      intro x hx
      rcases List.mem_cons.1 hx with rfl | hx
      · exact Or.inl rfl
      · rcases ih x hx with rfl | hxn
        · exact Or.inr (hc _ hE).2
        · exact Or.inr hxn

theorem gpath_snoc {g : Graph} {a x b : Nat} {p : List Nat}
    (h : GPath g a x p) (hE : (x, b) ∈ g.edges) : GPath g a b (p ++ [b]) := by
  have h2 : GPath g x b [x, b] := GPath.cons hE (GPath.single b)
  simpa using gpath_append h h2

theorem gpath_snoc_elim {g : Graph} {a b : Nat} {p : List Nat}
    (h : GPath g a b p) : 2 ≤ p.length →
    ∃ x q, GPath g a x q ∧ (x, b) ∈ g.edges ∧ p = q ++ [b] := by
  induction h with
  | single a => intro hlen; simp at hlen
  | @cons a b c p hE hp ih =>
      intro _
      obtain ⟨t, rfl⟩ := gpath_head hp
      rcases t with _ | ⟨y, ys⟩
      · obtain ⟨-, h2⟩ := gpath_singleton hp
        subst h2
        exact ⟨a, [a], GPath.single a, hE, rfl⟩
      · obtain ⟨x, q, hq, hE2, hpq⟩ := ih (by simp)
        exact ⟨x, a :: q, GPath.cons hE hq, hE2, by rw [hpq]; rfl⟩

/-! ### Dominance-order lemmas -/

theorem dom_self (g : Graph) (e v : Nat) : Dom g e v v :=
  fun _ hp => gpath_mem_last hp

theorem dom_entry_all (g : Graph) (e v : Nat) : Dom g e e v :=
  fun _ hp => gpath_mem_head hp

theorem dom_of_unreach {g : Graph} {e v : Nat} (h : ¬ Reach g e v) (u : Nat) :
    Dom g e u v :=
  fun p hp => absurd ⟨p, hp⟩ h

theorem reach_self (g : Graph) (e : Nat) : Reach g e e := ⟨[e], GPath.single e⟩

theorem dom_trans {g : Graph} {e u w v : Nat} (h1 : Dom g e u w)
    (h2 : Dom g e w v) : Dom g e u v := by
  intro p hp
  obtain ⟨s, t, rfl⟩ := List.append_of_mem (h2 p hp)
  have hpre := (gpath_split hp s w t rfl).1
  have := h1 _ hpre
  rcases List.mem_append.1 this with hu | hu
  · exact List.mem_append_left _ hu
  · simp only [List.mem_singleton] at hu
    subst hu
    exact List.mem_append_right _ (List.mem_cons_self _ _)

theorem reach_of_dom {g : Graph} {e u v : Nat} (h : Dom g e u v)
    (hr : Reach g e v) : Reach g e u := by
  obtain ⟨p, hp⟩ := hr
  obtain ⟨s, t, rfl⟩ := List.append_of_mem (h p hp)
  exact ⟨s ++ [u], (gpath_split hp s u t rfl).1⟩

theorem dom_to_entry {g : Graph} {e u : Nat} (h : Dom g e u e) : u = e := by
  have := h [e] (GPath.single e)
  simpa using this

theorem dom_antisymm {g : Graph} {e u v : Nat} (hr : Reach g e v)
    (h1 : Dom g e u v) (h2 : Dom g e v u) : u = v := by
  obtain ⟨p0, hp0⟩ := hr
  obtain ⟨q, hq, hnd, -⟩ := gpath_to_nodup hp0
  obtain ⟨s, t, rfl⟩ := List.append_of_mem (h1 q hq)
  have hpre := (gpath_split hq s u t rfl).1
  have hsuf := (gpath_split hq s u t rfl).2
  have hv : v ∈ s ++ [u] := h2 _ hpre
  rcases List.mem_append.1 hv with hv | hv
  · -- v would occur both in the prefix and in the suffix, contradicting Nodup
    have hv2 : v ∈ u :: t := gpath_mem_last hsuf
    have hdisj := List.disjoint_of_nodup_append hnd
    exact absurd hv2 (hdisj hv)
  · simp only [List.mem_singleton] at hv
    exact hv.symm

/-- If `w` dominates `v`, a duplicate-free path to `v` decomposes as
`s ++ w :: t`, and `u` lies in the `w :: t` part, then `w` dominates `u`. -/
theorem dom_before {g : Graph} {e w v u : Nat} {s t : List Nat}
    (hwv : Dom g e w v) (hq : GPath g e v (s ++ w :: t))
    (hnd : (s ++ w :: t).Nodup) (hu : u ∈ w :: t) : Dom g e w u := by
  rcases List.mem_cons.1 hu with rfl | hu
  · exact dom_self g e u
  · -- u occurs in t; the suffix of the path from u to v avoids w
    obtain ⟨t₁, t₂, rfl⟩ := List.append_of_mem hu
    have hsuf : GPath g u v (u :: t₂) := by
      have := (gpath_split hq (s ++ w :: t₁) u t₂ (by simp)).2
      exact this
    have hwt : w ∉ t₁ ++ u :: t₂ :=
      (List.nodup_cons.1 (List.nodup_append.1 hnd).2.1).1
    intro r hr
    by_contra hwr
    -- combined path from the entry to v avoiding w
    have hcomb : GPath g e v (r ++ t₂) := by
      simpa using gpath_append hr hsuf
    have := hwv _ hcomb
    rcases List.mem_append.1 this with hw | hw
    · exact hwr hw
    · exact hwt (List.mem_append_right _ (List.mem_cons_of_mem _ hw))

theorem dom_linear {g : Graph} {e u w v : Nat} (hr : Reach g e v)
    (h1 : Dom g e u v) (h2 : Dom g e w v) : Dom g e u w ∨ Dom g e w u := by
  obtain ⟨p0, hp0⟩ := hr
  obtain ⟨q, hq, hnd, -⟩ := gpath_to_nodup hp0
  obtain ⟨s, t, rfl⟩ := List.append_of_mem (h1 q hq)
  have hw : w ∈ s ++ u :: t := h2 _ hq
  rcases List.mem_append.1 hw with hw | hw
  · -- w occurs in the prefix before u: w dominates u
    obtain ⟨s₁, s₂, rfl⟩ := List.append_of_mem hw
    right
    have hq' : GPath g e v (s₁ ++ w :: (s₂ ++ u :: t)) := by simpa using hq
    have hnd' : (s₁ ++ w :: (s₂ ++ u :: t)).Nodup := by simpa using hnd
    exact dom_before h2 hq' hnd'
      (List.mem_cons_of_mem _ (List.mem_append_right _ (List.mem_cons_self _ _)))
  · left
    exact dom_before h1 hq hnd hw

theorem pred_dom {g : Graph} {e d p₀ m : Nat} (hE : (p₀, m) ∈ g.edges)
    (hne : d ≠ m) (hd : Dom g e d m) : Dom g e d p₀ := by
  intro r hr
  have hcomb : GPath g e m (r ++ [m]) := gpath_snoc hr hE
  have := hd _ hcomb
  rcases List.mem_append.1 this with h | h
  · exact h
  · simp only [List.mem_singleton] at h
    exact absurd h hne

theorem reach_mem_nodes {g : Graph} (hc : edgesClosed g) {e v : Nat}
    (hr : Reach g e v) : v = e ∨ v ∈ g.nodes := by
  obtain ⟨p, hp⟩ := hr
  exact gpath_tail_nodes hc hp v (gpath_mem_last hp)

/-! ### Executable reachability and dominance tests -/

theorem succs_mem {g : Graph} {x b : Nat} : b ∈ succs g x ↔ (x, b) ∈ g.edges := by
  simp only [succs, List.mem_map, List.mem_filter, beq_iff_eq]
  constructor
  · rintro ⟨e, ⟨he, h1⟩, h2⟩
    have : e = (x, b) := by
      cases e
      simp_all
    exact this ▸ he
  · intro h
    exact ⟨(x, b), ⟨h, rfl⟩, rfl⟩

theorem preds_mem {g : Graph} {p₀ n : Nat} : p₀ ∈ preds g n ↔ (p₀, n) ∈ g.edges := by
  simp only [preds, List.mem_map, List.mem_filter, beq_iff_eq]
  constructor
  · rintro ⟨e, ⟨he, h1⟩, h2⟩
    have : e = (p₀, n) := by
      cases e
      simp_all
    exact this ▸ he
  · intro h
    exact ⟨(p₀, n), ⟨h, rfl⟩, rfl⟩

theorem mem_reachUpTo_self (g : Graph) (a : Nat) : ∀ n, a ∈ reachUpTo g a n := by
  intro n
  induction n with
  | zero => simp [reachUpTo]
  | succ n ih =>
      simp only [reachUpTo, List.mem_dedup, List.mem_append]
      exact Or.inl ih

theorem reachUpTo_sound {g : Graph} {a : Nat} :
    ∀ {n b}, b ∈ reachUpTo g a n → ∃ p, GPath g a b p := by
  intro n
  induction n with
  | zero =>
      intro b h
      simp only [reachUpTo, List.mem_singleton] at h
      subst h
      exact ⟨[b], GPath.single b⟩
  | succ n ih =>
      intro b h
      simp only [reachUpTo, List.mem_dedup, List.mem_append, List.mem_flatMap] at h
      rcases h with h | ⟨x, hx, hb⟩
      · exact ih h
      · obtain ⟨p, hp⟩ := ih hx
        exact ⟨p ++ [b], gpath_snoc hp (succs_mem.1 hb)⟩

theorem reachUpTo_complete {g : Graph} {a b : Nat} {p : List Nat}
    (hp : GPath g a b p) : ∀ {n}, p.length ≤ n + 1 → b ∈ reachUpTo g a n := by
  intro n
  induction n generalizing p b with
  | zero =>
      intro hlen
      obtain ⟨t, rfl⟩ := gpath_head hp
      have : t = [] := by
        cases t
        · rfl
        · simp at hlen
      subst this
      obtain ⟨-, h2⟩ := gpath_singleton hp
      subst h2
      simp [reachUpTo]
  | succ n ih =>
      intro hlen
      by_cases hl : p.length ≤ n + 1
      · simp only [reachUpTo, List.mem_dedup, List.mem_append]
        exact Or.inl (ih hp hl)
      · have h2 : 2 ≤ p.length := by
          have h1 : 1 ≤ p.length := by
            obtain ⟨t, rfl⟩ := gpath_head hp
            simp
          omega
        obtain ⟨x, q, hq, hE, rfl⟩ := gpath_snoc_elim hp h2
        have hqlen : q.length ≤ n + 1 := by
          simp only [List.length_append, List.length_singleton] at hlen
          omega
        simp only [reachUpTo, List.mem_dedup, List.mem_append, List.mem_flatMap]
        exact Or.inr ⟨x, ih hq hqlen, succs_mem.2 hE⟩

theorem reach_iff_reachComp {g : Graph} (hc : edgesClosed g) {a b : Nat} :
    Reach g a b ↔ reachComp g a b = true := by
  constructor
  · rintro ⟨p, hp⟩
    obtain ⟨q, hq, hnd, -⟩ := gpath_to_nodup hp
    obtain ⟨t, rfl⟩ := gpath_head hq
    have htn : ∀ x ∈ t, x ∈ g.nodes := by
      intro x hx
      rcases gpath_tail_nodes hc hq x (List.mem_cons_of_mem _ hx) with rfl | h
      · exact absurd hx (List.nodup_cons.1 hnd).1
      · exact h
    have htlen : t.length ≤ g.nodes.length := by
      have hnd2 : t.Nodup := (List.nodup_cons.1 hnd).2
      calc t.length = t.toFinset.card := (List.toFinset_card_of_nodup hnd2).symm
        _ ≤ g.nodes.toFinset.card := by
              apply Finset.card_le_card
              intro x hx
              simp only [List.mem_toFinset] at hx ⊢
              exact htn x hx
        _ ≤ g.nodes.length := List.toFinset_card_le g.nodes
    have : (a :: t).length ≤ (g.nodes.length + 1) + 1 := by
      simp only [List.length_cons]
      omega
    simpa only [reachComp, decide_eq_true_eq] using reachUpTo_complete hq this
  · intro h
    simp only [reachComp, decide_eq_true_eq] at h
    exact reachUpTo_sound h

theorem edgesClosed_delNode {g : Graph} (hc : edgesClosed g) (u : Nat) :
    edgesClosed (delNode g u) := by
  intro e he
  simp only [delNode, List.mem_filter, Bool.and_eq_true, Bool.not_eq_true',
    beq_eq_false_iff_ne, ne_eq] at he ⊢
  obtain ⟨he, h1, h2⟩ := he
  exact ⟨⟨(hc e he).1, h1⟩, (hc e he).2, h2⟩

theorem gpath_of_delNode {g : Graph} {u a b : Nat} {p : List Nat}
    (h : GPath (delNode g u) a b p) : GPath g a b p := by
  induction h with
  | single a => exact GPath.single a
  | cons hE hp ih =>
      refine GPath.cons ?_ ih
      simp only [delNode, List.mem_filter] at hE
      exact hE.1

theorem delNode_not_mem {g : Graph} {u a b : Nat} {p : List Nat}
    (h : GPath (delNode g u) a b p) (ha : a ≠ u) : u ∉ p := by
  induction h with
  | single a =>
      simp only [List.mem_singleton]
      exact fun h => ha h.symm
  | @cons a b c p hE hp ih =>
      simp only [delNode, List.mem_filter, Bool.and_eq_true, Bool.not_eq_true',
        beq_eq_false_iff_ne, ne_eq] at hE
      intro hu
      rcases List.mem_cons.1 hu with rfl | hu
      · exact ha rfl
      · exact ih hE.2.2 hu

theorem gpath_delNode {g : Graph} {u a b : Nat} {p : List Nat}
    (h : GPath g a b p) (hu : u ∉ p) : GPath (delNode g u) a b p := by
  induction h with
  | single a => exact GPath.single a
  | @cons a b c p hE hp ih =>
      have ha : a ≠ u := fun h => hu (h ▸ List.mem_cons_self a p)
      have hb : b ≠ u := by
        intro h
        exact hu (List.mem_cons_of_mem _ (h ▸ gpath_mem_head hp))
      refine GPath.cons ?_ (ih (fun h => hu (List.mem_cons_of_mem _ h)))
      simp only [delNode, List.mem_filter, Bool.and_eq_true, Bool.not_eq_true',
        beq_eq_false_iff_ne, ne_eq]
      exact ⟨hE, ha, hb⟩

theorem dom_iff_del {g : Graph} {e u v : Nat} :
    Dom g e u v ↔ (u = v ∨ ¬ Reach (delNode g u) e v) := by
  by_cases huv : u = v
  · subst huv
    simp only [true_or, iff_true]
    exact dom_self g e u
  · simp only [huv, false_or]
    constructor
    · intro h
      rintro ⟨p, hp⟩
      by_cases heu : e = u
      · subst heu
        cases hp with
        | single => exact huv rfl
        | cons hE hp => simp [delNode] at hE
      · have hup : u ∉ p := delNode_not_mem hp heu
        exact hup (h p (gpath_of_delNode hp))
    · intro h p hp
      by_contra hu
      exact h ⟨p, gpath_delNode hp hu⟩

theorem DomDec_iff {g : Graph} (hc : edgesClosed g) {e u v : Nat} :
    DomDec g e u v = true ↔ Dom g e u v := by
  rw [dom_iff_del]
  have hR : Reach (delNode g u) e v ↔ reachComp (delNode g u) e v = true :=
    reach_iff_reachComp (edgesClosed_delNode hc u)
  constructor
  · intro h
    simp only [DomDec, Bool.or_eq_true, beq_iff_eq, Bool.not_eq_true'] at h
    rcases h with h | h
    · exact Or.inl h
    · refine Or.inr ?_
      rw [hR, h]
      simp
  · intro h
    simp only [DomDec, Bool.or_eq_true, beq_iff_eq, Bool.not_eq_true']
    rcases h with h | h
    · exact Or.inl h
    · refine Or.inr ?_
      cases hb : reachComp (delNode g u) e v
      · rfl
      · exact absurd (hR.mpr hb) h

theorem mem_sdomsList {g : Graph} (hc : edgesClosed g) {e u v : Nat} :
    u ∈ sdomsList g e v ↔ u ∈ g.nodes ∧ u ≠ v ∧ Dom g e u v := by
  simp only [sdomsList, List.mem_filter, Bool.and_eq_true, Bool.not_eq_true',
    beq_eq_false_iff_ne, ne_eq, DomDec_iff hc]

/-! ### Properties of the modelled immediate dominator -/

theorem idomFn_entry (g : Graph) (e : Nat) : idomFn g e e = none := by
  simp [idomFn]

theorem idomFn_unreach {g : Graph} (hc : edgesClosed g) {e v : Nat}
    (h : ¬ Reach g e v) : idomFn g e v = none := by
  unfold idomFn
  by_cases hv : v = e
  · simp [hv]
  · have : reachComp g e v = false := by
      cases hb : reachComp g e v
      · rfl
      · exact absurd ((reach_iff_reachComp hc).mpr hb) h
    simp [hv, this]

theorem idomFn_mem_nodes {g : Graph} {e v d : Nat}
    (h : idomFn g e v = some d) : d ∈ g.nodes := by
  unfold idomFn at h
  split at h
  · exact absurd h (by simp)
  · split at h
    · have := List.mem_of_find?_eq_some h
      simp only [sdomsList, List.mem_filter] at this
      exact this.1
    · exact absurd h (by simp)

theorem idomFn_some_spec {g : Graph} (hc : edgesClosed g) {e v d : Nat}
    (h : idomFn g e v = some d) :
    v ≠ e ∧ Reach g e v ∧ d ∈ g.nodes ∧ d ≠ v ∧ Dom g e d v ∧
      (∀ w ∈ g.nodes, w ≠ v → Dom g e w v → Dom g e w d) := by
  unfold idomFn at h
  split at h
  · exact absurd h (by simp)
  · rename_i hv
    split at h
    · rename_i hrc
      have hreach : Reach g e v := (reach_iff_reachComp hc).mpr hrc
      have hmem := List.mem_of_find?_eq_some h
      have hpred := List.find?_some h
      simp only [List.all_eq_true] at hpred
      have hd := (mem_sdomsList hc).1 hmem
      refine ⟨hv, hreach, hd.1, hd.2.1, hd.2.2, ?_⟩
      intro w hw hwv hdomw
      have hws : w ∈ sdomsList g e v := (mem_sdomsList hc).2 ⟨hw, hwv, hdomw⟩
      exact (DomDec_iff hc).1 (hpred w hws)
    · exact absurd h (by simp)

/-- In a nonempty list that is totally preordered by `R`, some element is a
lower bound of the whole list. -/
theorem exists_min {R : Nat → Nat → Prop} :
    ∀ (l : List Nat), l ≠ [] →
      (∀ a ∈ l, ∀ b ∈ l, R a b ∨ R b a) →
      (∀ a b c, R a b → R b c → R a c) →
      ∃ u ∈ l, ∀ w ∈ l, R w u := by
  intro l
  induction l with
  | nil => intro h; exact absurd rfl h
  | cons x xs ih =>
      intro _ htot htrans
      rcases xs with _ | ⟨y, ys⟩
      · refine ⟨x, List.mem_singleton_self x, ?_⟩
        intro w hw
        simp only [List.mem_singleton] at hw
        subst hw
        rcases htot w (List.mem_singleton_self w) w (List.mem_singleton_self w)
          with h | h <;> exact h
      · obtain ⟨u, hu, hmin⟩ := ih (by simp)
          (fun a ha b hb =>
            htot a (List.mem_cons_of_mem _ ha) b (List.mem_cons_of_mem _ hb))
          htrans
        rcases htot x (List.mem_cons_self _ _) u (List.mem_cons_of_mem _ hu)
          with hxu | hux
        · refine ⟨u, List.mem_cons_of_mem _ hu, ?_⟩
          intro w hw
          rcases List.mem_cons.1 hw with rfl | hw
          · exact hxu
          · exact hmin w hw
        · refine ⟨x, List.mem_cons_self _ _, ?_⟩
          intro w hw
          rcases List.mem_cons.1 hw with rfl | hw
          · rcases htot w (List.mem_cons_self _ _) w (List.mem_cons_self _ _)
              with h | h <;> exact h
          · exact htrans w u x (hmin w hw) hux

theorem idomFn_isSome {g : Graph} (hc : edgesClosed g) {e v : Nat}
    (he : e ∈ g.nodes) (hv : Reach g e v) (hne : v ≠ e) :
    ∃ d, idomFn g e v = some d := by
  have hrc : reachComp g e v = true := (reach_iff_reachComp hc).mp hv
  have hnonempty : sdomsList g e v ≠ [] := by
    intro hnil
    have : e ∈ sdomsList g e v :=
      (mem_sdomsList hc).2 ⟨he, fun h => hne h.symm, dom_entry_all g e v⟩
    rw [hnil] at this
    exact List.not_mem_nil e this
  obtain ⟨u, hu, hmin⟩ := exists_min (R := fun a b => Dom g e a b)
    (sdomsList g e v) hnonempty
    (fun a ha b hb =>
      dom_linear hv ((mem_sdomsList hc).1 ha).2.2 ((mem_sdomsList hc).1 hb).2.2)
    (fun a b c h1 h2 => dom_trans h1 h2)
  have hfind : (sdomsList g e v).find?
      (fun u => (sdomsList g e v).all (fun w => DomDec g e w u)) ≠ none := by
    intro hnone
    rw [List.find?_eq_none] at hnone
    refine hnone u hu ?_
    simp only [List.all_eq_true]
    intro w hw
    exact (DomDec_iff hc).2 (hmin w hw)
  unfold idomFn
  simp only [hne, if_false, hrc, if_true]
  cases hfd : (sdomsList g e v).find?
      (fun u => (sdomsList g e v).all (fun w => DomDec g e w u)) with
  | none => exact absurd hfd hfind
  | some d => exact ⟨d, rfl⟩

theorem sdoms_chain {g : Graph} (hc : edgesClosed g) {e v d : Nat}
    (h : idomFn g e v = some d) :
    ∀ w, w ∈ sdomsList g e v ↔ w = d ∨ w ∈ sdomsList g e d := by
  obtain ⟨hv, hreach, hdn, hdv, hdomd, hmin⟩ := idomFn_some_spec hc h
  intro w
  constructor
  · intro hw
    obtain ⟨hwn, hwv, hdomw⟩ := (mem_sdomsList hc).1 hw
    by_cases hwd : w = d
    · exact Or.inl hwd
    · exact Or.inr ((mem_sdomsList hc).2 ⟨hwn, hwd, hmin w hwn hwv hdomw⟩)
  · intro hw
    rcases hw with rfl | hw
    · exact (mem_sdomsList hc).2 ⟨hdn, hdv, hdomd⟩
    · obtain ⟨hwn, hwd, hdomwd⟩ := (mem_sdomsList hc).1 hw
      refine (mem_sdomsList hc).2 ⟨hwn, ?_, dom_trans hdomwd hdomd⟩
      intro hwv
      subst hwv
      have hreachd : Reach g e d := reach_of_dom hdomd hreach
      exact hdv (dom_antisymm hreachd hdomwd hdomd).symm

theorem sdoms_card_lt {g : Graph} (hc : edgesClosed g) (hnd : g.nodes.Nodup)
    {e v d : Nat} (h : idomFn g e v = some d) :
    (sdomsList g e d).length < (sdomsList g e v).length := by
  obtain ⟨hv, hreach, hdn, hdv, hdomd, hmin⟩ := idomFn_some_spec hc h
  have hnd1 : (sdomsList g e v).Nodup := hnd.filter _
  have hnd2 : (sdomsList g e d).Nodup := hnd.filter _
  have hdd : d ∉ sdomsList g e d := by
    intro hmem
    exact ((mem_sdomsList hc).1 hmem).2.1 rfl
  have hdv2 : d ∈ sdomsList g e v := (mem_sdomsList hc).2 ⟨hdn, hdv, hdomd⟩
  have hsub : (sdomsList g e d).toFinset ⊂ (sdomsList g e v).toFinset := by
    constructor
    · intro x hx
      simp only [List.mem_toFinset] at hx ⊢
      exact (sdoms_chain hc h x).2 (Or.inr hx)
    · intro hcontra
      have := hcontra (by simpa using hdv2)
      simp only [List.mem_toFinset] at this
      exact hdd this
  calc (sdomsList g e d).length = (sdomsList g e d).toFinset.card :=
        (List.toFinset_card_of_nodup hnd2).symm
    _ < (sdomsList g e v).toFinset.card := Finset.card_lt_card hsub
    _ = (sdomsList g e v).length := List.toFinset_card_of_nodup hnd1

/-! ### The immediate-dominator chain -/

theorem chainList_none (g : Graph) (e : Nat) : ∀ f, chainList g e none f = [] := by
  intro f
  cases f <;> rfl

theorem chainList_succ (g : Graph) (e r : Nat) (f : Nat) :
    chainList g e (some r) (f + 1) = r :: chainList g e (idomFn g e r) f := rfl

theorem sdomsList_pos_of_idom {g : Graph} (hc : edgesClosed g) {e r d : Nat}
    (hid : idomFn g e r = some d) : 0 < (sdomsList g e r).length := by
  have hmem : d ∈ sdomsList g e r := by
    obtain ⟨-, -, hdn, hdv, hdomd, -⟩ := idomFn_some_spec hc hid
    exact (mem_sdomsList hc).2 ⟨hdn, hdv, hdomd⟩
  refine List.length_pos.2 ?_
  intro hnil
  rw [hnil] at hmem
  exact List.not_mem_nil d hmem

theorem chainList_stable_aux {g : Graph} (hc : edgesClosed g)
    (hnd : g.nodes.Nodup) {e : Nat} :
    ∀ (m r f₁ f₂ : Nat), (sdomsList g e r).length ≤ m →
      m + 1 ≤ f₁ → m + 1 ≤ f₂ →
      chainList g e (some r) f₁ = chainList g e (some r) f₂ := by
  intro m
  induction m with
  | zero =>
      intro r f₁ f₂ hm h1 h2
      rcases f₁ with _ | f₁
      · omega
      rcases f₂ with _ | f₂
      · omega
      rw [chainList_succ, chainList_succ]
      cases hid : idomFn g e r with
      | none => rw [chainList_none, chainList_none]
      | some d =>
          have := sdomsList_pos_of_idom hc hid
          omega
  | succ m ih =>
      intro r f₁ f₂ hm h1 h2
      rcases f₁ with _ | f₁
      · omega
      rcases f₂ with _ | f₂
      · omega
      rw [chainList_succ, chainList_succ]
      cases hid : idomFn g e r with
      | none => rw [chainList_none, chainList_none]
      | some d =>
          have hlt : (sdomsList g e d).length < (sdomsList g e r).length :=
            sdoms_card_lt hc hnd hid
          rw [ih d f₁ f₂ (by omega) (by omega) (by omega)]

theorem chainList_stable {g : Graph} (hc : edgesClosed g)
    (hnd : g.nodes.Nodup) {e : Nat} {f₁ f₂ : Nat}
    (h1 : walkFuel g ≤ f₁) (h2 : walkFuel g ≤ f₂) :
    ∀ ro, chainList g e ro f₁ = chainList g e ro f₂ := by
  intro ro
  cases ro with
  | none => rw [chainList_none, chainList_none]
  | some r =>
      refine chainList_stable_aux hc hnd g.nodes.length r f₁ f₂
        (List.length_filter_le _ _) ?_ ?_ <;>
        simpa [walkFuel] using ‹_›

theorem chain_mem_entry (g : Graph) (e : Nat) (f : Nat) :
    ∀ k, k ∈ chainList g e (some e) (f + 1) ↔ Dom g e k e := by
  intro k
  rw [chainList_succ, idomFn_entry, chainList_none, List.mem_singleton]
  constructor
  · intro h
    subst h
    exact dom_self _ _ _
  · intro h
    exact dom_to_entry h

theorem chain_mem {g : Graph} (hc : edgesClosed g) (hnd : g.nodes.Nodup)
    {e : Nat} (he : e ∈ g.nodes) :
    ∀ (m r f : Nat), (sdomsList g e r).length ≤ m → m + 1 ≤ f →
      Reach g e r →
      ∀ k, k ∈ chainList g e (some r) f ↔ Dom g e k r := by
  intro m
  induction m with
  | zero =>
      intro r f hm hf hr k
      rcases f with _ | f
      · omega
      have hre : r = e := by
        by_contra hne
        obtain ⟨d, hd⟩ := idomFn_isSome hc he hr hne
        have := sdomsList_pos_of_idom hc hd
        omega
      rw [hre]
      exact chain_mem_entry g e f k
  | succ m ih =>
      intro r f hm hf hr k
      rcases f with _ | f
      · omega
      by_cases hre : r = e
      · rw [hre]
        exact chain_mem_entry g e f k
      · obtain ⟨d, hd⟩ := idomFn_isSome hc he hr hre
        obtain ⟨-, -, hdn, hdv, hdomd, hmin⟩ := idomFn_some_spec hc hd
        have hreachd : Reach g e d := reach_of_dom hdomd hr
        have hlt : (sdomsList g e d).length < (sdomsList g e r).length :=
          sdoms_card_lt hc hnd hd
        rw [chainList_succ, hd, List.mem_cons]
        rw [ih d f (by omega) (by omega) hreachd k]
        constructor
        · rintro (rfl | h)
          · exact dom_self _ _ _
          · exact dom_trans h hdomd
        · intro h
          by_cases hkr : k = r
          · exact Or.inl hkr
          · right
            have hkn : k ∈ g.nodes := by
              have hrk : Reach g e k := reach_of_dom h hr
              rcases reach_mem_nodes hc hrk with rfl | hkn
              · exact he
              · exact hkn
            have hks : k ∈ sdomsList g e r := (mem_sdomsList hc).2 ⟨hkn, hkr, h⟩
            rcases (sdoms_chain hc hd k).1 hks with rfl | hks2
            · exact dom_self _ _ _
            · exact ((mem_sdomsList hc).1 hks2).2.2

theorem chain_pairwise {g : Graph} (hc : edgesClosed g) (hnd : g.nodes.Nodup)
    {e : Nat} (he : e ∈ g.nodes) :
    ∀ (m r f : Nat), (sdomsList g e r).length ≤ m → m + 1 ≤ f →
      Reach g e r →
      (chainList g e (some r) f).Pairwise (fun a b => Dom g e b a ∧ b ≠ a) := by
  intro m
  induction m with
  | zero =>
      intro r f hm hf hr
      rcases f with _ | f
      · omega
      rw [chainList_succ]
      cases hid : idomFn g e r with
      | none => rw [chainList_none]; exact List.pairwise_singleton _ _
      | some d =>
          have := sdomsList_pos_of_idom hc hid
          omega
  | succ m ih =>
      intro r f hm hf hr
      rcases f with _ | f
      · omega
      by_cases hre : r = e
      · rw [hre, chainList_succ, idomFn_entry, chainList_none]
        exact List.pairwise_singleton _ _
      · obtain ⟨d, hd⟩ := idomFn_isSome hc he hr hre
        obtain ⟨-, -, hdn, hdv, hdomd, hmin⟩ := idomFn_some_spec hc hd
        have hreachd : Reach g e d := reach_of_dom hdomd hr
        have hlt : (sdomsList g e d).length < (sdomsList g e r).length :=
          sdoms_card_lt hc hnd hd
        rw [chainList_succ, hd]
        refine List.pairwise_cons.2 ⟨?_, ih d f (by omega) (by omega) hreachd⟩
        intro b hb
        have hbd : Dom g e b d :=
          (chain_mem hc hnd he m d f (by omega) (by omega) hreachd b).1 hb
        refine ⟨dom_trans hbd hdomd, ?_⟩
        intro hbr
        subst hbr
        exact hdv (dom_antisymm hreachd hbd hdomd).symm

/-! ### The runner walk -/

theorem mem_takeWhile_pairwise {R : Nat → Nat → Prop} :
    ∀ (l : List Nat) (pb : Nat → Bool), l.Pairwise R →
      (∀ a ∈ l, ∀ b ∈ l, R a b → R b a → False) →
      ∀ k, (k ∈ l.takeWhile pb ↔
        k ∈ l ∧ pb k = true ∧ ∀ s ∈ l, pb s = false → R k s) := by
  intro l
  induction l with
  | nil => intro pb hpw hasym k; simp
  | cons x xs ih =>
      intro pb hpw hasym k
      obtain ⟨hRx, hpwxs⟩ := List.pairwise_cons.1 hpw
      have hasymxs : ∀ a ∈ xs, ∀ b ∈ xs, R a b → R b a → False :=
        fun a ha b hb =>
          hasym a (List.mem_cons_of_mem _ ha) b (List.mem_cons_of_mem _ hb)
      cases hpx : pb x with
      | true =>
          rw [List.takeWhile_cons_of_pos hpx, List.mem_cons]
          constructor
          · rintro (rfl | hk)
            · refine ⟨List.mem_cons_self _ _, hpx, ?_⟩
              intro s hs hps
              rcases List.mem_cons.1 hs with rfl | hs
              · rw [hpx] at hps; cases hps
              · exact hRx s hs
            · obtain ⟨hk1, hk2, hk3⟩ := (ih pb hpwxs hasymxs k).1 hk
              refine ⟨List.mem_cons_of_mem _ hk1, hk2, ?_⟩
              intro s hs hps
              rcases List.mem_cons.1 hs with rfl | hs
              · rw [hpx] at hps; cases hps
              · exact hk3 s hs hps
          · rintro ⟨hk1, hk2, hk3⟩
            rcases List.mem_cons.1 hk1 with rfl | hk1
            · exact Or.inl rfl
            · refine Or.inr ((ih pb hpwxs hasymxs k).2 ⟨hk1, hk2, ?_⟩)
              intro s hs hps
              exact hk3 s (List.mem_cons_of_mem _ hs) hps
      | false =>
          rw [List.takeWhile_cons_of_neg (by simp [hpx])]
          simp only [List.not_mem_nil, false_iff]
          rintro ⟨hk1, hk2, hk3⟩
          have hRkx : R k x := hk3 x (List.mem_cons_self _ _) hpx
          rcases List.mem_cons.1 hk1 with rfl | hk1
          · rw [hpx] at hk2; cases hk2
          · exact hasym x (List.mem_cons_self _ _) k (List.mem_cons_of_mem _ hk1)
              (hRx k hk1) hRkx

theorem walkAdds_eq_takeWhile (g : Graph) (e n : Nat) :
    ∀ (f : Nat) (ro : Option Nat),
      walkAdds g e n ro f = (chainList g e ro f).takeWhile (keepGoing g e n) := by
  intro f
  induction f with
  | zero => intro ro; cases ro <;> rfl
  | succ f ih =>
      intro ro
      cases ro with
      | none => rfl
      | some r =>
          rw [chainList_succ]
          by_cases hstop : some r = idomFn g e n ∨ r = n
          · have hkg : keepGoing g e n r = false := by
              simp only [keepGoing, Bool.not_eq_false', Bool.or_eq_true,
                decide_eq_true_eq]
              exact hstop
            rw [List.takeWhile_cons_of_neg (by simp [hkg])]
            simp only [walkAdds, hstop, if_true]
          · rw [List.takeWhile_cons_of_pos (by
              simp only [keepGoing, Bool.not_eq_true', Bool.or_eq_false_iff,
                decide_eq_false_iff_not]
              push_neg at hstop
              exact ⟨hstop.1, hstop.2⟩)]
            simp only [walkAdds, hstop, if_false]
            rw [ih (idomFn g e r)]

theorem walkAdds_none (g : Graph) (e n : Nat) : ∀ f, walkAdds g e n none f = [] := by
  intro f
  cases f <;> rfl

theorem walkAdds_stable {g : Graph} (hc : edgesClosed g) (hnd : g.nodes.Nodup)
    {e : Nat} {f₁ f₂ : Nat} (h1 : walkFuel g ≤ f₁) (h2 : walkFuel g ≤ f₂) :
    ∀ n ro, walkAdds g e n ro f₁ = walkAdds g e n ro f₂ := by
  intro n ro
  rw [walkAdds_eq_takeWhile, walkAdds_eq_takeWhile,
    chainList_stable hc hnd h1 h2 ro]

/-- Characterisation of the runners that receive `n` during the walk from a
reachable runner `r`. -/
theorem walk_mem {g : Graph} (hc : edgesClosed g) (hnd : g.nodes.Nodup)
    {e : Nat} (he : e ∈ g.nodes) {r : Nat} (hr : Reach g e r) {f : Nat}
    (hf : walkFuel g ≤ f) (n k : Nat) :
    k ∈ walkAdds g e n (some r) f ↔
      Dom g e k r ∧ ¬(some k = idomFn g e n ∨ k = n) ∧
        ∀ s, Dom g e s r → (some s = idomFn g e n ∨ s = n) →
          Dom g e s k ∧ s ≠ k := by
  have hm : (sdomsList g e r).length ≤ g.nodes.length :=
    List.length_filter_le _ _
  have hf2 : g.nodes.length + 1 ≤ f := by
    simpa [walkFuel] using hf
  have hcm := chain_mem hc hnd he g.nodes.length r f hm hf2 hr
  have hpw := chain_pairwise hc hnd he g.nodes.length r f hm hf2 hr
  rw [walkAdds_eq_takeWhile]
  rw [mem_takeWhile_pairwise (chainList g e (some r) f) (keepGoing g e n) hpw ?asym k]
  case asym =>
    intro a ha b hb h1 h2
    have hda : Dom g e a r := (hcm a).1 ha
    have hra : Reach g e a := reach_of_dom hda hr
    exact h1.2 (dom_antisymm hra h1.1 h2.1)
  constructor
  · rintro ⟨h1, h2, h3⟩
    refine ⟨(hcm k).1 h1, ?_, ?_⟩
    · simp only [keepGoing, Bool.not_eq_true', Bool.or_eq_false_iff,
        decide_eq_false_iff_not] at h2
      rintro (h | h)
      · exact h2.1 h
      · exact h2.2 h
    · intro s hs hstop
      have hmem : s ∈ chainList g e (some r) f := (hcm s).2 hs
      have hps : keepGoing g e n s = false := by
        simp only [keepGoing, Bool.not_eq_false', Bool.or_eq_true,
          decide_eq_true_eq]
        exact hstop
      have := h3 s hmem hps
      exact ⟨this.1, this.2⟩
  · rintro ⟨h1, h2, h3⟩
    refine ⟨(hcm k).2 h1, ?_, ?_⟩
    · simp only [keepGoing, Bool.not_eq_true', Bool.or_eq_false_iff,
        decide_eq_false_iff_not]
      push_neg at h2
      exact ⟨h2.1, h2.2⟩
    · intro s hs hps
      have hds : Dom g e s r := (hcm s).1 hs
      have hstop : some s = idomFn g e n ∨ s = n := by
        simpa only [keepGoing, Bool.not_eq_false', Bool.or_eq_true,
          decide_eq_true_eq] using hps
      exact h3 s hds hstop

theorem walk_unreach_mem {g : Graph} (hc : edgesClosed g) {e r : Nat}
    (hnr : ¬ Reach g e r) {f n k : Nat}
    (hk : k ∈ walkAdds g e n (some r) f) : k = r := by
  rcases f with _ | f
  · cases hk
  · unfold walkAdds at hk
    split at hk
    · cases hk
    · rw [idomFn_unreach hc hnr, walkAdds_none] at hk
      simpa using hk

/-! ### The frontier map -/

theorem dfLookup_nil (k : Nat) : dfLookup [] k = [] := rfl

theorem find?_map_keyEq (df : List (Nat × List Nat)) (r n' k : Nat) :
    (df.map (fun kv =>
        if kv.1 == r then (kv.1, if n' ∈ kv.2 then kv.2 else kv.2 ++ [n']) else kv)).find?
          (fun kv => kv.1 == k)
      = (df.find? (fun kv => kv.1 == k)).map (fun kv =>
          if kv.1 == r then (kv.1, if n' ∈ kv.2 then kv.2 else kv.2 ++ [n']) else kv) := by
  rw [List.find?_map]
  have hcomp : ((fun kv : Nat × List Nat => kv.1 == k) ∘ fun kv =>
      if kv.1 == r then (kv.1, if n' ∈ kv.2 then kv.2 else kv.2 ++ [n']) else kv)
      = (fun kv : Nat × List Nat => kv.1 == k) := by
    funext kv
    by_cases h : kv.1 = r <;> simp [Function.comp, h]
  rw [hcomp]

theorem dfLookup_dfAdd_ne (df : List (Nat × List Nat)) (r n' k : Nat)
    (hkr : k ≠ r) : dfLookup (dfAdd df r n') k = dfLookup df k := by
  unfold dfAdd
  cases hf : df.find? (fun kv => kv.1 == r) with
  | none =>
      unfold dfLookup
      rw [List.find?_append]
      have h2 : ([((r : Nat), [n'])].find? (fun kv => kv.1 == k)) = none := by
        rw [List.find?_cons_of_neg _ (by
          simp only [beq_iff_eq]
          exact fun h => hkr h.symm)]
        rfl
      rw [h2, Option.or_none]
  | some kv0 =>
      unfold dfLookup
      rw [find?_map_keyEq]
      cases hk : df.find? (fun kv => kv.1 == k) with
      | none => rfl
      | some kv1 =>
          have hk1 : kv1.1 = k := by simpa using List.find?_some hk
          simp only [Option.map_some']
          rw [if_neg (by simp only [beq_iff_eq, hk1]; exact hkr)]

theorem dfLookup_dfAdd_eq (df : List (Nat × List Nat)) (r n' : Nat) :
    dfLookup (dfAdd df r n') r =
      if n' ∈ dfLookup df r then dfLookup df r else dfLookup df r ++ [n'] := by
  unfold dfAdd
  cases hf : df.find? (fun kv => kv.1 == r) with
  | none =>
      unfold dfLookup
      rw [List.find?_append, hf]
      have h2 : ([((r : Nat), [n'])].find? (fun kv => kv.1 == r)) = some (r, [n']) := by
        exact List.find?_cons_of_pos _ (by simp)
      rw [h2]
      simp
  | some kv0 =>
      unfold dfLookup
      rw [find?_map_keyEq, hf]
      have hk1 : kv0.1 = r := by simpa using List.find?_some hf
      simp only [Option.map_some']
      rw [if_pos (by simp [hk1])]

theorem mem_dfAdd (df : List (Nat × List Nat)) (r n' k m : Nat) :
    m ∈ dfLookup (dfAdd df r n') k ↔ m ∈ dfLookup df k ∨ (k = r ∧ m = n') := by
  by_cases hkr : k = r
  · subst hkr
    rw [dfLookup_dfAdd_eq]
    by_cases hn : n' ∈ dfLookup df k
    · rw [if_pos hn]
      constructor
      · exact Or.inl
      · rintro (h | ⟨-, rfl⟩)
        · exact h
        · exact hn
    · rw [if_neg hn]
      simp only [List.mem_append, List.mem_singleton]
      constructor
      · rintro (h | rfl)
        · exact Or.inl h
        · exact Or.inr (by simp)
      · rintro (h | ⟨-, rfl⟩)
        · exact Or.inl h
        · exact Or.inr rfl
  · rw [dfLookup_dfAdd_ne df r n' k hkr]
    simp [hkr]

theorem mem_foldl_dfAdd (n' k m : Nat) :
    ∀ (ks : List Nat) (df : List (Nat × List Nat)),
      m ∈ dfLookup (ks.foldl (fun d x => dfAdd d x n') df) k ↔
        m ∈ dfLookup df k ∨ (k ∈ ks ∧ m = n') := by
  intro ks
  induction ks with
  | nil => intro df; simp
  | cons x ks ih =>
      intro df
      simp only [List.foldl_cons]
      rw [ih (dfAdd df x n'), mem_dfAdd]
      simp only [List.mem_cons]
      constructor
      · rintro ((h | ⟨rfl, rfl⟩) | ⟨h1, rfl⟩)
        · exact Or.inl h
        · exact Or.inr ⟨Or.inl rfl, rfl⟩
        · exact Or.inr ⟨Or.inr h1, rfl⟩
      · rintro (h | ⟨(rfl | h1), rfl⟩)
        · exact Or.inl (Or.inl h)
        · exact Or.inl (Or.inr ⟨rfl, rfl⟩)
        · exact Or.inr ⟨h1, rfl⟩

theorem runnerLoopF_eq_fold (g : Graph) (e n : Nat) :
    ∀ (f : Nat) (ro : Option Nat) (df : List (Nat × List Nat)),
      runnerLoopF g e n ro f df =
        (walkAdds g e n ro f).foldl (fun d x => dfAdd d x n) df := by
  intro f
  induction f with
  | zero => intro ro df; cases ro <;> rfl
  | succ f ih =>
      intro ro df
      cases ro with
      | none => rfl
      | some r =>
          by_cases hstop : some r = idomFn g e n ∨ r = n
          · simp only [runnerLoopF, walkAdds, hstop, if_true]
            rfl
          · simp only [runnerLoopF, walkAdds, hstop, if_false]
            rw [ih, List.foldl_cons]

theorem mem_runnerLoopF (g : Graph) (e n : Nat) (f : Nat) (ro : Option Nat)
    (df : List (Nat × List Nat)) (k m : Nat) :
    m ∈ dfLookup (runnerLoopF g e n ro f df) k ↔
      m ∈ dfLookup df k ∨ (k ∈ walkAdds g e n ro f ∧ m = n) := by
  rw [runnerLoopF_eq_fold, mem_foldl_dfAdd]

theorem mem_predsFold (g : Graph) (e n f : Nat) (k m : Nat) :
    ∀ (ps : List Nat) (df : List (Nat × List Nat)),
      m ∈ dfLookup (ps.foldl (fun d p => runnerLoopF g e n (some p) f d) df) k ↔
        m ∈ dfLookup df k ∨
          ∃ p ∈ ps, k ∈ walkAdds g e n (some p) f ∧ m = n := by
  intro ps
  induction ps with
  | nil => intro df; simp
  | cons p ps ih =>
      intro df
      simp only [List.foldl_cons]
      rw [ih, mem_runnerLoopF]
      simp only [List.mem_cons]
      constructor
      · rintro ((h | h) | ⟨q, hq, hw⟩)
        · exact Or.inl h
        · exact Or.inr ⟨p, Or.inl rfl, h⟩
        · exact Or.inr ⟨q, Or.inr hq, hw⟩
      · rintro (h | ⟨q, (rfl | hq), hw⟩)
        · exact Or.inl (Or.inl h)
        · exact Or.inl (Or.inr hw)
        · exact Or.inr ⟨q, hq, hw⟩

theorem mem_dominance_implF (g : Graph) (e f : Nat)
    (df0 : List (Nat × List Nat)) (k m : Nat) :
    m ∈ dfLookup (dominance_implF g e f df0) k ↔
      m ∈ dfLookup df0 k ∨
        ∃ n ∈ g.nodes, ∃ p ∈ preds g n, k ∈ walkAdds g e n (some p) f ∧ m = n := by
  unfold dominance_implF
  generalize g.nodes = ns
  induction ns generalizing df0 with
  | nil => simp
  | cons n ns ih =>
      simp only [List.foldl_cons]
      rw [ih, mem_predsFold]
      simp only [List.mem_cons]
      constructor
      · rintro ((h | ⟨p, hp, hw, hmn⟩) | ⟨n', hn', hrest⟩)
        · exact Or.inl h
        · exact Or.inr ⟨n, Or.inl rfl, p, hp, hw, hmn⟩
        · exact Or.inr ⟨n', Or.inr hn', hrest⟩
      · rintro (h | ⟨n', (rfl | hn'), hrest⟩)
        · exact Or.inl (Or.inl h)
        · exact Or.inl (Or.inr hrest)
        · exact Or.inr ⟨n', hn', hrest⟩

/-! ### The frontier characterisation -/

theorem frontier_iff_impl (g : Graph) (e : Nat) (hc : edgesClosed g)
    (hnd : g.nodes.Nodup) (he : e ∈ g.nodes) (m k : Nat)
    (hm : Reach g e m) (hk : Reach g e k) :
    m ∈ dfLookup (dominance_impl g e []) k ↔
      (k ≠ m ∧ ¬ SDom g e k m ∧
        ∃ p ∈ preds g m, Reach g e p ∧ Dom g e k p) := by
  rw [dominance_impl, mem_dominance_implF]
  simp only [dfLookup_nil, List.not_mem_nil, false_or]
  constructor
  · rintro ⟨n, hn, p, hp, hw, hmn⟩
    subst hmn
    by_cases hrp : Reach g e p
    · rw [walk_mem hc hnd he hrp (le_refl _)] at hw
      obtain ⟨hkp, hnstop, hstops⟩ := hw
      push_neg at hnstop
      refine ⟨hnstop.2, ?_, p, hp, hrp, hkp⟩
      rintro ⟨hkm, hdomkm⟩
      by_cases hme : m = e
      · have hke : k = e := dom_to_entry (hme ▸ hdomkm)
        exact hkm (hke.trans hme.symm)
      · obtain ⟨d, hd⟩ := idomFn_isSome hc he hm hme
        obtain ⟨-, -, hdn, hdne, hdomd, hmin⟩ := idomFn_some_spec hc hd
        have hkd : k ≠ d := by
          intro h
          exact hnstop.1 (by rw [h]; exact hd.symm)
        have hkn : k ∈ g.nodes := by
          rcases reach_mem_nodes hc hk with rfl | h
          · exact he
          · exact h
        have hks : k ∈ sdomsList g e m := (mem_sdomsList hc).2 ⟨hkn, hkm, hdomkm⟩
        rcases (sdoms_chain hc hd k).1 hks with rfl | hks2
        · exact hkd rfl
        · have hkdomd : Dom g e k d := ((mem_sdomsList hc).1 hks2).2.2
          have hddomp : Dom g e d p := pred_dom (preds_mem.1 hp) hdne hdomd
          have hstopd := hstops d hddomp (Or.inl hd.symm)
          have hreachd : Reach g e d := reach_of_dom hdomd hm
          exact hkd (dom_antisymm hreachd hkdomd hstopd.1)
    · have hkp := walk_unreach_mem hc hrp hw
      exact absurd (hkp ▸ hk) hrp
  · rintro ⟨hkm, hnsdom, p, hp, hrp, hkp⟩
    have hmn : m ∈ g.nodes := by
      rcases reach_mem_nodes hc hm with rfl | h
      · exact he
      · exact h
    refine ⟨m, hmn, p, hp, ?_, rfl⟩
    rw [walk_mem hc hnd he hrp (le_refl _)]
    have hknsd : ¬ (some k = idomFn g e m) := by
      intro h
      obtain ⟨-, -, -, hdv, hdomd, -⟩ := idomFn_some_spec hc h.symm
      exact hnsdom ⟨hdv, hdomd⟩
    refine ⟨hkp, ?_, ?_⟩
    · rintro (h | h)
      · exact hknsd h
      · exact hkm h
    · intro s hsp hstop
      rcases hstop with h | rfl
      · obtain ⟨-, -, -, hsm, hdoms, -⟩ := idomFn_some_spec hc h.symm
        have hsk : s ≠ k := by
          intro hsk
          exact hknsd (hsk ▸ h)
        refine ⟨?_, hsk⟩
        rcases dom_linear hrp hsp hkp with hsk2 | hks2
        · exact hsk2
        · exact ((hnsdom ⟨hkm, dom_trans hks2 hdoms⟩)).elim
      · refine ⟨?_, fun h => hkm h.symm⟩
        rcases dom_linear hrp hsp hkp with hmk | hkm2
        · exact hmk
        · exact ((hnsdom ⟨hkm, hkm2⟩)).elim

/-- C1 (amended): for every well-formed graph whose entry is one of its
vertices and for all nodes `m` and `k` reachable from the entry, after the
dominance pipeline completes, `m ∈ DF(k)` if and only if `k ≠ m`, `k` does
not strictly dominate `m`, and some predecessor of `m` that is reachable
from the entry is dominated (non-strictly) by `k`; here `u dominates v`
means every path from the entry to `v` passes through `u`. -/
theorem C1_frontier_characterization (g : Graph) (hwf : wellformed g)
    (he : g.entry ∈ g.nodes) (m k : Nat)
    (hm : Reach g g.entry m) (hk : Reach g g.entry k) :
    m ∈ dfLookup (dominance g []) k ↔
      (k ≠ m ∧ ¬ SDom g g.entry k m ∧
        ∃ p ∈ preds g m, Reach g g.entry p ∧ Dom g g.entry k p) := by
  obtain ⟨hc, hnd⟩ := hwf
  rw [dominance]
  exact frontier_iff_impl g g.entry hc hnd he m k hm hk

/-- C1 counterexample: on the single-node graph with a self-loop, the claim
as stated fails at `m = k = 0`: `0` does not strictly dominate `0` and the
predecessor `0` of `0` is dominated by `0`, yet `0 ∉ DF(0)` (the runner
guard `runner ≠ n` prevents any self-insertion). -/
theorem C1_frontier_claim_cex :
    ¬ (0 ∈ dfLookup (dominance gSelfLoop []) 0 ↔
        (¬ SDom gSelfLoop gSelfLoop.entry 0 0 ∧
          ∃ p ∈ preds gSelfLoop 0, Dom gSelfLoop gSelfLoop.entry 0 p)) := by
  intro h
  have hrhs : ¬ SDom gSelfLoop gSelfLoop.entry 0 0 ∧
      ∃ p ∈ preds gSelfLoop 0, Dom gSelfLoop gSelfLoop.entry 0 p := by
    constructor
    · rintro ⟨hne, -⟩
      exact hne rfl
    · refine ⟨0, by decide, dom_self _ _ _⟩
  have hmem := h.mpr hrhs
  have : dominance gSelfLoop [] = [] := by rfl
  rw [this] at hmem
  exact List.not_mem_nil 0 hmem

/-! ### The dominator-tree output map -/

/-- C2: for every well-formed graph `G` with `entry` a vertex of `G`,
`dominator_tree` populates the map with exactly one entry per vertex such
that the entry node maps to the null sentinel, every node reachable from
the entry other than the entry maps to a node `u ≠ v` that dominates `v`,
and every node unreachable from the entry maps to the null sentinel. -/
theorem C2_dominator_tree_spec (g : Graph) (e : Nat) (hwf : wellformed g)
    (he : e ∈ g.nodes) :
    (dominator_tree g e).map Prod.fst = g.nodes ∧
    ((dominator_tree g e).map Prod.fst).Nodup ∧
    (e, (none : Option Nat)) ∈ dominator_tree g e ∧
    (∀ v ∈ g.nodes, v ≠ e → Reach g e v →
      ∃ u, (v, some u) ∈ dominator_tree g e ∧ u ≠ v ∧ Dom g e u v) ∧
    (∀ v ∈ g.nodes, ¬ Reach g e v → (v, (none : Option Nat)) ∈ dominator_tree g e) := by
  obtain ⟨hc, hnd⟩ := hwf
  have hfst : (dominator_tree g e).map Prod.fst = g.nodes := by
    rw [dominator_tree, List.map_map]
    exact List.map_id g.nodes
  refine ⟨hfst, by rw [hfst]; exact hnd, ?_, ?_, ?_⟩
  · have : (e, idomFn g e e) ∈ dominator_tree g e :=
      List.mem_map_of_mem _ he
    rwa [idomFn_entry] at this
  · intro v hv hne hr
    obtain ⟨d, hd⟩ := idomFn_isSome hc he hr hne
    obtain ⟨-, -, -, hdv, hdomd, -⟩ := idomFn_some_spec hc hd
    refine ⟨d, ?_, hdv, hdomd⟩
    have : (v, idomFn g e v) ∈ dominator_tree g e := List.mem_map_of_mem _ hv
    rwa [hd] at this
  · intro v hv hnr
    have : (v, idomFn g e v) ∈ dominator_tree g e := List.mem_map_of_mem _ hv
    rwa [idomFn_unreach hc hnr] at this

/-- C2 witness: the specification instantiated on the diamond graph. -/
theorem C2_dominator_tree_spec_witness :
    (dominator_tree diamond 0).map Prod.fst = diamond.nodes ∧
    ((dominator_tree diamond 0).map Prod.fst).Nodup ∧
    (0, (none : Option Nat)) ∈ dominator_tree diamond 0 ∧
    (∀ v ∈ diamond.nodes, v ≠ 0 → Reach diamond 0 v →
      ∃ u, (v, some u) ∈ dominator_tree diamond 0 ∧ u ≠ v ∧ Dom diamond 0 u v) ∧
    (∀ v ∈ diamond.nodes, ¬ Reach diamond 0 v →
      (v, (none : Option Nat)) ∈ dominator_tree diamond 0) :=
  C2_dominator_tree_spec diamond 0 (by decide) (by decide)

/-! ### Post-dominance without an exit node -/

/-- C4: when the graph has no designated exit node, `post_dominance`
returns the mapping unchanged (so an empty input map stays empty), performs
no traversal, and emits nothing through the diagnostics sink. -/
theorem C4_post_dominance_no_exit (g : Graph) (rdf : List (Nat × List Nat))
    (h : g.exitNode = none) :
    post_dominance g rdf = rdf ∧ post_dominance_events g rdf = [] := by
  unfold post_dominance post_dominance_events
  rw [h]
  exact ⟨rfl, rfl⟩

/-- C4 witness: the no-exit behaviour on a concrete graph. -/
theorem C4_post_dominance_no_exit_witness :
    post_dominance gSingle [] = [] ∧ post_dominance_events gSingle [] = [] :=
  C4_post_dominance_no_exit gSingle [] rfl

/-! ### Map-shape invariants of the frontier computation -/

theorem foldl_preserve {α β : Type} (Q : α → Prop) (f : α → β → α)
    (hf : ∀ a b, Q a → Q (f a b)) :
    ∀ (l : List β) (a : α), Q a → Q (l.foldl f a) := by
  intro l
  induction l with
  | nil => intro a ha; exact ha
  | cons x xs ih =>
      intro a ha
      exact ih (f a x) (hf a x ha)

theorem runnerLoopF_preserve (Q : List (Nat × List Nat) → Prop)
    (hQ : ∀ df r n', Q df → Q (dfAdd df r n')) (g : Graph) (e n : Nat) :
    ∀ (f : Nat) (ro : Option Nat) (df : List (Nat × List Nat)),
      Q df → Q (runnerLoopF g e n ro f df) := by
  intro f
  induction f with
  | zero => intro ro df h; cases ro <;> exact h
  | succ f ih =>
      intro ro df h
      cases ro with
      | none => exact h
      | some r =>
          by_cases hstop : some r = idomFn g e n ∨ r = n
          · simpa only [runnerLoopF, hstop, if_true] using h
          · simp only [runnerLoopF, hstop, if_false]
            exact ih (idomFn g e r) (dfAdd df r n) (hQ df r n h)

theorem dominance_implF_preserve (Q : List (Nat × List Nat) → Prop)
    (hQ : ∀ df r n', Q df → Q (dfAdd df r n')) (g : Graph) (e f : Nat)
    (df0 : List (Nat × List Nat)) (h0 : Q df0) :
    Q (dominance_implF g e f df0) := by
  unfold dominance_implF
  refine foldl_preserve Q _ ?_ g.nodes df0 h0
  intro df n hdf
  refine foldl_preserve Q _ ?_ (preds g n) df hdf
  intro df2 p hdf2
  exact runnerLoopF_preserve Q hQ g e n f (some p) df2 hdf2

theorem dfAdd_values_nodup {df : List (Nat × List Nat)} {r n' : Nat}
    (h : ∀ kv ∈ df, kv.2.Nodup) : ∀ kv ∈ dfAdd df r n', kv.2.Nodup := by
  unfold dfAdd
  cases hf : df.find? (fun kv => kv.1 == r) with
  | none =>
      intro kv hkv
      rcases List.mem_append.1 hkv with hkv | hkv
      · exact h kv hkv
      · simp only [List.mem_singleton] at hkv
        subst hkv
        exact List.nodup_singleton n'
  | some kv0 =>
      intro kv hkv
      obtain ⟨kv1, hkv1, rfl⟩ := List.mem_map.1 hkv
      by_cases hr : kv1.1 = r
      · rw [if_pos (by simp [hr])]
        by_cases hn : n' ∈ kv1.2
        · simpa only [if_pos hn] using h kv1 hkv1
        · simp only [if_neg hn]
          rw [List.nodup_append]
          refine ⟨h kv1 hkv1, List.nodup_singleton n', ?_⟩
          intro a ha hb
          simp only [List.mem_singleton] at hb
          subst hb
          exact hn ha
      · rw [if_neg (by simp [hr])]
        exact h kv1 hkv1

theorem dfAdd_values_nonempty {df : List (Nat × List Nat)} {r n' : Nat}
    (h : ∀ kv ∈ df, kv.2 ≠ []) : ∀ kv ∈ dfAdd df r n', kv.2 ≠ [] := by
  unfold dfAdd
  cases hf : df.find? (fun kv => kv.1 == r) with
  | none =>
      intro kv hkv
      rcases List.mem_append.1 hkv with hkv | hkv
      · exact h kv hkv
      · simp only [List.mem_singleton] at hkv
        subst hkv
        simp
  | some kv0 =>
      intro kv hkv
      obtain ⟨kv1, hkv1, rfl⟩ := List.mem_map.1 hkv
      by_cases hr : kv1.1 = r
      · rw [if_pos (by simp [hr])]
        by_cases hn : n' ∈ kv1.2
        · simpa only [if_pos hn] using h kv1 hkv1
        · simp only [if_neg hn]
          simp
      · rw [if_neg (by simp [hr])]
        exact h kv1 hkv1

theorem dfAdd_keys_nodup {df : List (Nat × List Nat)} {r n' : Nat}
    (h : (df.map Prod.fst).Nodup) : ((dfAdd df r n').map Prod.fst).Nodup := by
  unfold dfAdd
  cases hf : df.find? (fun kv => kv.1 == r) with
  | none =>
      rw [List.map_append]
      rw [List.nodup_append]
      refine ⟨h, by simp, ?_⟩
      intro a ha hb
      simp only [List.map_cons, List.map_nil, List.mem_singleton] at hb
      subst hb
      obtain ⟨kv, hkv, hkv1⟩ := List.mem_map.1 ha
      have := List.find?_eq_none.1 hf kv hkv
      simp only [beq_iff_eq] at this
      exact this hkv1
  | some kv0 =>
      have : (df.map (fun kv =>
          if kv.1 == r then (kv.1, if n' ∈ kv.2 then kv.2 else kv.2 ++ [n']) else kv)).map
            Prod.fst = df.map Prod.fst := by
        rw [List.map_map]
        apply List.map_congr_left
        intro kv hkv
        by_cases hr : kv.1 = r <;> simp [Function.comp, hr]
      rw [this]
      exact h

/-- C9: every frontier list in the map produced by `dominance` is free of
duplicates, provided every list in the initial map is (in particular when
the initial map is empty). -/
theorem C9_df_values_nodup (g : Graph) (df0 : List (Nat × List Nat))
    (h0 : ∀ kv ∈ df0, kv.2.Nodup) :
    ∀ kv ∈ dominance g df0, kv.2.Nodup := by
  unfold dominance dominance_impl
  exact dominance_implF_preserve (fun df => ∀ kv ∈ df, kv.2.Nodup)
    (fun df r n' h => dfAdd_values_nodup h) g g.entry (walkFuel g) df0 h0

/-- C9 witness: on the diamond graph starting from the empty map. -/
theorem C9_df_values_nodup_witness : ([3] : List Nat).Nodup :=
  C9_df_values_nodup diamond [] (by intro kv hkv; cases hkv) (1, [3]) (by decide)

/-- Shared invariant: starting from the empty map, every entry of the
result of `dominance` has a non-empty frontier list. -/
theorem df_values_nonempty_of_nil (g : Graph) :
    ∀ kv ∈ dominance g [], kv.2 ≠ [] := by
  unfold dominance dominance_impl
  refine dominance_implF_preserve (fun df => ∀ kv ∈ df, kv.2 ≠ [])
    (fun df r n' h => dfAdd_values_nonempty h) g g.entry (walkFuel g) [] ?_
  intro kv hkv
  cases hkv

/-- Shared invariant: starting from the empty map, the keys of the result
of `dominance` are pairwise distinct. -/
theorem df_keys_nodup_of_nil (g : Graph) :
    ((dominance g []).map Prod.fst).Nodup := by
  unfold dominance dominance_impl
  refine dominance_implF_preserve (fun df => (df.map Prod.fst).Nodup)
    (fun df r n' h => dfAdd_keys_nodup h) g g.entry (walkFuel g) [] (by simp)

/-- C10: assuming the output mapping passed to `dominance` is empty at call
time, every key present in the returned mapping has a non-empty frontier
list: an entry is created only when a frontier element is added to it. -/
theorem C10_df_keys_nonempty (g : Graph) :
    ∀ kv ∈ dominance g [], kv.2 ≠ [] :=
  df_values_nonempty_of_nil g

/-- C10 witness: the entry `(1, [3])` of the diamond result is non-empty. -/
theorem C10_df_keys_nonempty_witness : ([3] : List Nat) ≠ [] :=
  C10_df_keys_nonempty diamond (1, [3]) (by decide)

/-! ### Keys of the frontier map -/

theorem chainList_subset {g : Graph} {e : Nat} :
    ∀ {f r k : Nat}, k ∈ chainList g e (some r) f → k = r ∨ k ∈ g.nodes := by
  intro f
  induction f with
  | zero => intro r k hk; cases hk
  | succ f ih =>
      intro r k hk
      rw [chainList_succ] at hk
      rcases List.mem_cons.1 hk with rfl | hk
      · exact Or.inl rfl
      · cases hid : idomFn g e r with
        | none =>
            rw [hid, chainList_none] at hk
            cases hk
        | some d =>
            rw [hid] at hk
            rcases ih hk with rfl | hkn
            · exact Or.inr (idomFn_mem_nodes hid)
            · exact Or.inr hkn

theorem walkAdds_subset {g : Graph} {e n f p k : Nat}
    (hk : k ∈ walkAdds g e n (some p) f) : k = p ∨ k ∈ g.nodes := by
  rw [walkAdds_eq_takeWhile] at hk
  exact chainList_subset ((List.takeWhile_sublist _).subset hk)

theorem dfLookup_of_mem :
    ∀ {df : List (Nat × List Nat)}, (df.map Prod.fst).Nodup →
      ∀ {kv}, kv ∈ df → dfLookup df kv.1 = kv.2 := by
  intro df
  induction df with
  | nil => intro _ kv hkv; cases hkv
  | cons kv0 rest ih =>
      intro hnd kv hkv
      simp only [List.map_cons, List.nodup_cons] at hnd
      by_cases h0 : kv0.1 = kv.1
      · have hkv0 : kv = kv0 := by
          rcases List.mem_cons.1 hkv with rfl | hkv
          · rfl
          · exact absurd (h0 ▸ List.mem_map_of_mem Prod.fst hkv) hnd.1
        subst hkv0
        unfold dfLookup
        rw [List.find?_cons_of_pos _ (by simp)]
      · have hkv' : kv ∈ rest := by
          rcases List.mem_cons.1 hkv with rfl | hkv
          · exact absurd rfl h0
          · exact hkv
        unfold dfLookup
        rw [List.find?_cons_of_neg _ (by simp [h0])]
        exact ih hnd.2 hkv'

/-- C5 counterexample: on a single-node graph with no edges, the returned
mapping is empty although the node `0` is a vertex: the node has no entry
in the mapping (its frontier is only implicitly empty). -/
theorem C5_df_total_cex : dominance gSingle [] = [] ∧ 0 ∈ gSingle.nodes :=
  ⟨rfl, by decide⟩

/-- C5 (amended): for every well-formed graph, every key present in the
mapping returned by `dominance` is a node of `G`; a node with no entry in
the mapping (for example a node that never becomes a runner) has a
well-defined, empty frontier through lookup — the mapping is total with
absent keys reading as the empty set, rather than physically containing an
entry for every node. -/
theorem C5_df_keys (g : Graph) (hwf : wellformed g) :
    (∀ kv ∈ dominance g [], kv.1 ∈ g.nodes) ∧
    (∀ v, (∀ l, (v, l) ∉ dominance g []) → dfLookup (dominance g []) v = []) := by
  obtain ⟨hc, hnd⟩ := hwf
  constructor
  · intro kv hkv
    obtain ⟨m, hm⟩ := List.exists_mem_of_ne_nil _ (df_values_nonempty_of_nil g kv hkv)
    have hlk : dfLookup (dominance g []) kv.1 = kv.2 :=
      dfLookup_of_mem (df_keys_nodup_of_nil g) hkv
    have hmem : m ∈ dfLookup (dominance g []) kv.1 := by rw [hlk]; exact hm
    rw [dominance, dominance_impl, mem_dominance_implF] at hmem
    rcases hmem with hmem | ⟨n, hn, p, hp, hw, -⟩
    · cases hmem
    · rcases walkAdds_subset hw with rfl | hkn
      · exact (hc _ (preds_mem.1 hp)).1
      · exact hkn
  · intro v hnot
    unfold dfLookup
    cases hfind : (dominance g []).find? (fun kv => kv.1 == v) with
    | none => rfl
    | some kv =>
        have hmem := List.mem_of_find?_eq_some hfind
        have hfst : kv.1 = v := by simpa using List.find?_some hfind
        exact absurd (show (v, kv.2) ∈ dominance g [] by
          rw [← hfst]; exact hmem) (hnot kv.2)

/-- C5 witness: the amended statement on the diamond graph. -/
theorem C5_df_keys_witness :
    (∀ kv ∈ dominance diamond [], kv.1 ∈ diamond.nodes) ∧
    (∀ v, (∀ l, (v, l) ∉ dominance diamond []) →
      dfLookup (dominance diamond []) v = []) :=
  C5_df_keys diamond (by decide)

/-! ### Congruence: the pipeline reads only nodes, edges and entry -/

theorem succs_congr {g₁ g₂ : Graph} (hed : g₁.edges = g₂.edges) :
    succs g₁ = succs g₂ := by
  funext x
  unfold succs
  rw [hed]

theorem preds_congr {g₁ g₂ : Graph} (hed : g₁.edges = g₂.edges) :
    preds g₁ = preds g₂ := by
  funext n
  unfold preds
  rw [hed]

theorem reachUpTo_congr {g₁ g₂ : Graph} (hed : g₁.edges = g₂.edges) :
    ∀ (a f : Nat), reachUpTo g₁ a f = reachUpTo g₂ a f := by
  intro a f
  induction f with
  | zero => rfl
  | succ f ih =>
      simp only [reachUpTo]
      rw [ih, succs_congr hed]

theorem reachComp_congr {g₁ g₂ : Graph} (hn : g₁.nodes = g₂.nodes)
    (hed : g₁.edges = g₂.edges) : reachComp g₁ = reachComp g₂ := by
  funext a b
  unfold reachComp
  rw [reachUpTo_congr hed, hn]

theorem DomDec_congr {g₁ g₂ : Graph} (hn : g₁.nodes = g₂.nodes)
    (hed : g₁.edges = g₂.edges) : DomDec g₁ = DomDec g₂ := by
  funext e u v
  unfold DomDec
  have h1 : (delNode g₁ u).nodes = (delNode g₂ u).nodes := by
    simp only [delNode, hn]
  have h2 : (delNode g₁ u).edges = (delNode g₂ u).edges := by
    simp only [delNode, hed]
  rw [reachComp_congr h1 h2]

theorem sdomsList_congr {g₁ g₂ : Graph} (hn : g₁.nodes = g₂.nodes)
    (hed : g₁.edges = g₂.edges) : sdomsList g₁ = sdomsList g₂ := by
  funext e v
  unfold sdomsList
  rw [hn, DomDec_congr hn hed]

theorem idomFn_congr {g₁ g₂ : Graph} (hn : g₁.nodes = g₂.nodes)
    (hed : g₁.edges = g₂.edges) : idomFn g₁ = idomFn g₂ := by
  funext e v
  unfold idomFn
  rw [reachComp_congr hn hed, sdomsList_congr hn hed, DomDec_congr hn hed]

theorem dominator_tree_congr {g₁ g₂ : Graph} (hn : g₁.nodes = g₂.nodes)
    (hed : g₁.edges = g₂.edges) : dominator_tree g₁ = dominator_tree g₂ := by
  funext e
  unfold dominator_tree
  rw [hn, idomFn_congr hn hed]

theorem runnerLoopF_ext {g₁ g₂ : Graph} (hid : idomFn g₁ = idomFn g₂)
    (e n : Nat) : ∀ (f : Nat) (ro : Option Nat) df,
      runnerLoopF g₁ e n ro f df = runnerLoopF g₂ e n ro f df := by
  intro f
  induction f with
  | zero => intro ro df; cases ro <;> rfl
  | succ f ih =>
      intro ro df
      cases ro with
      | none => rfl
      | some r =>
          simp only [runnerLoopF, hid]
          split
          · rfl
          · rw [ih]

theorem dominance_implF_congr {g₁ g₂ : Graph} (hn : g₁.nodes = g₂.nodes)
    (hed : g₁.edges = g₂.edges) (e f : Nat) (df0 : List (Nat × List Nat)) :
    dominance_implF g₁ e f df0 = dominance_implF g₂ e f df0 := by
  unfold dominance_implF
  have hid : idomFn g₁ = idomFn g₂ := idomFn_congr hn hed
  have houter : (fun df n => (preds g₁ n).foldl
        (fun df2 p => runnerLoopF g₁ e n (some p) f df2) df)
      = (fun df n => (preds g₂ n).foldl
        (fun df2 p => runnerLoopF g₂ e n (some p) f df2) df) := by
    funext df n
    rw [preds_congr hed]
    congr 1
    funext df2 p
    exact runnerLoopF_ext hid e n f (some p) df2
  rw [hn, houter]

theorem dominance_impl_congr {g₁ g₂ : Graph} (hn : g₁.nodes = g₂.nodes)
    (hed : g₁.edges = g₂.edges) (e : Nat) (df0 : List (Nat × List Nat)) :
    dominance_impl g₁ e df0 = dominance_impl g₂ e df0 := by
  unfold dominance_impl walkFuel
  rw [hn]
  exact dominance_implF_congr hn hed e _ df0

/-- C8: the dominance pipeline is deterministic — two calls with the same
vertex list, edge list and entry produce identical idom maps and identical
dominance-frontier maps (in particular the designated exit node is never
consulted). -/
theorem C8_deterministic (g₁ g₂ : Graph) (df : List (Nat × List Nat))
    (hn : g₁.nodes = g₂.nodes) (hed : g₁.edges = g₂.edges)
    (hent : g₁.entry = g₂.entry) :
    dominator_tree g₁ g₁.entry = dominator_tree g₂ g₂.entry ∧
      dominance g₁ df = dominance g₂ df := by
  constructor
  · rw [dominator_tree_congr hn hed, hent]
  · unfold dominance
    rw [hent]
    exact dominance_impl_congr hn hed g₂.entry df

/-- C8 witness: the same graph with and without an exit node gives the same
results. -/
theorem C8_deterministic_witness :
    dominator_tree diamond diamond.entry =
      dominator_tree { diamond with exitNode := none }
        ({ diamond with exitNode := none } : Graph).entry ∧
    dominance diamond [] = dominance { diamond with exitNode := none } [] :=
  C8_deterministic diamond { diamond with exitNode := none } [] rfl rfl rfl

/-! ### Post-dominance as dominance of the reversed view -/

/-- C3: when the graph has a designated exit node `x`, `post_dominance` is
exactly `dominance` on the spec's reversed view (same node identities,
every edge flipped, entry set to `x`); in particular, on the diamond
`A→B, A→C, B→D, C→D` with exit `D`, the post-dominator (immediate dominator
in the reversed view) of `A`, `B` and `C` is `D`. -/
theorem C3_post_dominance_refines :
    (∀ (g : Graph) (x : Nat) (rdf : List (Nat × List Nat)),
        g.exitNode = some x →
        post_dominance g rdf = dominance (revViewSpec g x) rdf) ∧
    idomFn (cfg_rev diamond) (cfg_rev diamond).entry 0 = some 3 ∧
    idomFn (cfg_rev diamond) (cfg_rev diamond).entry 1 = some 3 ∧
    idomFn (cfg_rev diamond) (cfg_rev diamond).entry 2 = some 3 := by
  refine ⟨?_, by decide, by decide, by decide⟩
  intro g x rdf hx
  unfold post_dominance dominance
  rw [hx]
  have hent : (cfg_rev g).entry = x := by
    simp [cfg_rev, hx]
  rw [hent]
  exact dominance_impl_congr (by simp [cfg_rev, revViewSpec])
    (by simp [cfg_rev, revViewSpec]) x rdf

/-- C3 witness: the refinement applied to the diamond graph. -/
theorem C3_post_dominance_refines_witness :
    post_dominance diamond [] = dominance (revViewSpec diamond 3) [] :=
  C3_post_dominance_refines.1 diamond 3 [] rfl

/-! ### Self-loop edges are inert -/

theorem gpath_mono {g₁ g₂ : Graph} (hsub : ∀ e ∈ g₁.edges, e ∈ g₂.edges)
    {a b : Nat} {p : List Nat} (h : GPath g₁ a b p) : GPath g₂ a b p := by
  induction h with
  | single a => exact GPath.single a
  | cons hE hp ih => exact GPath.cons (hsub _ hE) ih

theorem gpath_addLoop_elim {g : Graph} {n a b : Nat} {p : List Nat}
    (h : GPath (addLoop g n) a b p) :
    ∃ q, GPath g a b q ∧ ∀ x, (x ∈ q ↔ x ∈ p) := by
  induction h with
  | single a => exact ⟨[a], GPath.single a, fun x => Iff.rfl⟩
  | @cons a b c p hE hp ih =>
      obtain ⟨q, hq, hiff⟩ := ih
      rcases List.mem_append.1 hE with hE | hE
      · refine ⟨a :: q, GPath.cons hE hq, ?_⟩
        intro x
        rw [List.mem_cons, List.mem_cons, hiff x]
      · simp only [List.mem_singleton, Prod.mk.injEq] at hE
        obtain ⟨rfl, rfl⟩ := hE
        refine ⟨q, hq, ?_⟩
        intro x
        rw [hiff x, List.mem_cons]
        constructor
        · exact Or.inr
        · rintro (rfl | hx)
          · exact gpath_mem_head hp
          · exact hx

theorem reach_addLoop {g : Graph} {n a v : Nat} :
    Reach (addLoop g n) a v ↔ Reach g a v := by
  constructor
  · rintro ⟨p, hp⟩
    obtain ⟨q, hq, -⟩ := gpath_addLoop_elim hp
    exact ⟨q, hq⟩
  · rintro ⟨p, hp⟩
    exact ⟨p, gpath_mono (fun e he => List.mem_append_left _ he) hp⟩

theorem dom_addLoop {g : Graph} {n e u v : Nat} :
    Dom (addLoop g n) e u v ↔ Dom g e u v := by
  constructor
  · intro h p hp
    exact h p (gpath_mono (fun e' he' => List.mem_append_left _ he') hp)
  · intro h p hp
    obtain ⟨q, hq, hiff⟩ := gpath_addLoop_elim hp
    exact (hiff u).1 (h q hq)

theorem edgesClosed_addLoop {g : Graph} (hc : edgesClosed g) {n : Nat}
    (hn : n ∈ g.nodes) : edgesClosed (addLoop g n) := by
  intro e he
  rcases List.mem_append.1 he with he | he
  · exact hc e he
  · simp only [List.mem_singleton] at he
    subst he
    exact ⟨hn, hn⟩

theorem reachComp_addLoop {g : Graph} (hc : edgesClosed g) {n : Nat}
    (hn : n ∈ g.nodes) : reachComp (addLoop g n) = reachComp g := by
  funext a b
  rw [Bool.eq_iff_iff]
  rw [← reach_iff_reachComp (edgesClosed_addLoop hc hn),
    ← reach_iff_reachComp hc]
  exact reach_addLoop

theorem delNode_addLoop_ne {g : Graph} {n u : Nat} (hne : n ≠ u) :
    delNode (addLoop g n) u = addLoop (delNode g u) n := by
  obtain ⟨ns, es, en, ex⟩ := g
  simp [delNode, addLoop, List.filter_append, hne]

theorem delNode_addLoop_self {g : Graph} {n : Nat} :
    delNode (addLoop g n) n = delNode g n := by
  obtain ⟨ns, es, en, ex⟩ := g
  simp [delNode, addLoop, List.filter_append]

theorem DomDec_addLoop {g : Graph} (hc : edgesClosed g) {n : Nat}
    (hn : n ∈ g.nodes) : DomDec (addLoop g n) = DomDec g := by
  funext e u v
  unfold DomDec
  by_cases hun : u = n
  · subst hun
    rw [delNode_addLoop_self]
  · rw [delNode_addLoop_ne (fun h => hun h.symm)]
    have hc' : edgesClosed (delNode g u) := edgesClosed_delNode hc u
    have hn' : n ∈ (delNode g u).nodes := by
      simp only [delNode, List.mem_filter, Bool.not_eq_true', beq_eq_false_iff_ne,
        ne_eq]
      exact ⟨hn, fun h => hun h.symm⟩
    rw [reachComp_addLoop hc' hn']

theorem sdomsList_addLoop {g : Graph} (hc : edgesClosed g) {n : Nat}
    (hn : n ∈ g.nodes) : sdomsList (addLoop g n) = sdomsList g := by
  funext e v
  unfold sdomsList
  rw [DomDec_addLoop hc hn]
  rfl

theorem idomFn_addLoop {g : Graph} (hc : edgesClosed g) {n : Nat}
    (hn : n ∈ g.nodes) : idomFn (addLoop g n) = idomFn g := by
  funext e v
  unfold idomFn
  rw [reachComp_addLoop hc hn, sdomsList_addLoop hc hn, DomDec_addLoop hc hn]

theorem preds_addLoop_ne {g : Graph} {n m : Nat} (h : m ≠ n) :
    preds (addLoop g n) m = preds g m := by
  unfold preds addLoop
  simp only [List.filter_append]
  have hb : (n == m) = false := beq_eq_false_iff_ne.mpr (fun hc => h hc.symm)
  have : List.filter (fun e => e.2 == m) [(n, n)] = [] := by
    simp [List.filter, hb]
  rw [this, List.append_nil]

theorem preds_addLoop_self {g : Graph} {n : Nat} :
    preds (addLoop g n) n = preds g n ++ [n] := by
  unfold preds addLoop
  simp [List.filter_append]

/-- C6: adding a self-loop edge `n → n` to a well-formed graph changes
neither any node's immediate dominator nor the dominance-frontier map: the
self-loop edge adds `n` (and anything else) to no node's frontier. -/
theorem C6_selfloop (g : Graph) (n : Nat) (df0 : List (Nat × List Nat))
    (hwf : wellformed g) (hn : n ∈ g.nodes) :
    (∀ v, idomFn (addLoop g n) g.entry v = idomFn g g.entry v) ∧
    dominance (addLoop g n) df0 = dominance g df0 := by
  obtain ⟨hc, hnd⟩ := hwf
  have hid : idomFn (addLoop g n) = idomFn g := idomFn_addLoop hc hn
  refine ⟨fun v => by rw [hid], ?_⟩
  unfold dominance dominance_impl dominance_implF
  have hent : (addLoop g n).entry = g.entry := rfl
  have hfuel : walkFuel (addLoop g n) = walkFuel g := rfl
  have hnodes : (addLoop g n).nodes = g.nodes := rfl
  rw [hent, hfuel, hnodes]
  have hnode : (fun df m => (preds (addLoop g n) m).foldl
        (fun df2 p => runnerLoopF (addLoop g n) g.entry m (some p) (walkFuel g) df2) df)
      = (fun df m => (preds g m).foldl
        (fun df2 p => runnerLoopF g g.entry m (some p) (walkFuel g) df2) df) := by
    funext df m
    have hfun : (fun df2 p => runnerLoopF (addLoop g n) g.entry m (some p) (walkFuel g) df2)
        = (fun df2 p => runnerLoopF g g.entry m (some p) (walkFuel g) df2) := by
      funext df2 p
      exact runnerLoopF_ext hid g.entry m (walkFuel g) (some p) df2
    rw [hfun]
    by_cases hm : m = n
    · subst hm
      rw [preds_addLoop_self, List.foldl_append]
      simp only [List.foldl_cons, List.foldl_nil]
      have hstep : ∀ acc, runnerLoopF g g.entry m (some m) (walkFuel g) acc = acc := by
        intro acc
        rw [runnerLoopF_eq_fold]
        have hwa : walkAdds g g.entry m (some m) (walkFuel g) = [] := by
          show walkAdds g g.entry m (some m) (g.nodes.length + 1) = []
          simp [walkAdds]
        rw [hwa]
        rfl
      rw [hstep]
    · rw [preds_addLoop_ne hm]
  rw [hnode]

/-- C6 witness: a self-loop added at node `3` of the diamond graph. -/
theorem C6_selfloop_witness :
    (∀ v, idomFn (addLoop diamond 3) diamond.entry v = idomFn diamond diamond.entry v) ∧
    dominance (addLoop diamond 3) [] = dominance diamond [] :=
  C6_selfloop diamond 3 [] (by decide) (by decide)

/-! ### Totality of the runner walks -/

/-- C7: the pipeline is total.  `dominator_tree` is a total function by
construction; every runner walk stabilises once it is given at least
`walkFuel g` fuel — with any larger fuel it reaches one of its stop
conditions (the null sentinel, `idom[n]`, or `n`) after at most
`walkFuel g` steps and produces the same additions — and hence the whole
frontier computation is independent of the fuel bound. -/
theorem C7_total (g : Graph) (e : Nat) (df0 : List (Nat × List Nat)) (f : Nat)
    (hwf : wellformed g) (hf : walkFuel g ≤ f) :
    (∀ n ro, walkAdds g e n ro f = walkAdds g e n ro (walkFuel g)) ∧
    dominance_implF g e f df0 = dominance_impl g e df0 := by
  obtain ⟨hc, hnd⟩ := hwf
  have hwa : ∀ n ro, walkAdds g e n ro f = walkAdds g e n ro (walkFuel g) :=
    walkAdds_stable hc hnd hf (le_refl _)
  refine ⟨hwa, ?_⟩
  unfold dominance_impl dominance_implF
  have hrl : (fun df m => (preds g m).foldl
        (fun df2 p => runnerLoopF g e m (some p) f df2) df)
      = (fun df m => (preds g m).foldl
        (fun df2 p => runnerLoopF g e m (some p) (walkFuel g) df2) df) := by
    funext df m
    congr 1
    funext df2 p
    rw [runnerLoopF_eq_fold, runnerLoopF_eq_fold, hwa m (some p)]
  rw [hrl]

/-- C7 witness: extra fuel does not change the result on the diamond. -/
theorem C7_total_witness :
    (∀ n ro, walkAdds diamond 0 n ro 10 = walkAdds diamond 0 n ro (walkFuel diamond)) ∧
    dominance_implF diamond 0 10 [] = dominance_impl diamond 0 [] :=
  C7_total diamond 0 [] 10 (by decide) (by decide)

/-- C1 witness: the amended characterisation instantiated on the diamond
graph at `m = 3`, `k = 1`. -/
theorem C1_frontier_characterization_witness :
    3 ∈ dfLookup (dominance diamond []) 1 ↔
      (1 ≠ 3 ∧ ¬ SDom diamond diamond.entry 1 3 ∧
        ∃ p ∈ preds diamond 3,
          Reach diamond diamond.entry p ∧ Dom diamond diamond.entry 1 p) :=
  C1_frontier_characterization diamond (by decide) (by decide) 3 1
    ⟨[0, 1, 3], GPath.cons (by decide) (GPath.cons (by decide) (GPath.single 3))⟩
    ⟨[0, 1], GPath.cons (by decide) (GPath.single 1)⟩
